import Mathlib

/-!
# Verification of the slide-topic / exam-question matching pipeline

Shallow embedding of the repository's three tools:
* `tools/match_topics.py`   (normalisation, scoring, greedy matching),
* `tools/extract_slide_titles.py` (per-page title selection and merging),
* `tools/extract_exam_questions.py` (line segmentation into question items).

Python strings are modelled as `List Char`, Python floats as `ℚ` (exact
rational arithmetic), Python `int` as `Int`/`Nat`.  Regular expressions used
by the source are hand-translated to executable functions on `List Char`.
-/

namespace DataMining

/-! ## Basic string utilities (Python `str` methods used by the source) -/

/-- Python whitespace for `str.strip` / `str.split` / the regex class `\s`
(ASCII part; the repository's inputs do not rely on non-ASCII spaces). -/
def isSpaceChar (c : Char) : Bool :=
  c = ' ' || c = '\t' || c = '\n' || c = '\r' || c = '\x0b' || c = '\x0c'

/-- ASCII case folding (Python `str.lower`; non-ASCII case pairs do not occur
in the repository's alias table, so they are modelled as fixed points). -/
def lowerChar (c : Char) : Char :=
  if 'A' ≤ c ∧ c ≤ 'Z' then Char.ofNat (c.toNat + 32) else c

def lowerStr (t : List Char) : List Char := t.map lowerChar

/-- Python `str.strip()`. -/
def strip (t : List Char) : List Char :=
  ((t.dropWhile isSpaceChar).reverse.dropWhile isSpaceChar).reverse

/-- Python `str.lstrip()`-like helper used for `rstrip` via reverse. -/
def stripRight (t : List Char) : List Char :=
  (t.reverse.dropWhile isSpaceChar).reverse

/-- Worker for `splitWS`: `cur` holds the (reversed) token in progress. -/
def splitWSGo : List Char → List Char → List (List Char)
  | cur, [] => if cur = [] then [] else [cur.reverse]
  | cur, c :: t =>
    if isSpaceChar c then
      (if cur = [] then [] else [cur.reverse]) ++ splitWSGo [] t
    else splitWSGo (c :: cur) t

/-- Python `str.split()` (split on runs of whitespace, no empty fields). -/
def splitWS (t : List Char) : List (List Char) := splitWSGo [] t

/-- `" ".join(...)`. -/
def joinSpace (l : List (List Char)) : List Char := List.intercalate [' '] l

/-- Worker for `collapseWS`: `inRun` records being inside a whitespace run. -/
def collapseWSGo : Bool → List Char → List Char
  | _, [] => []
  | inRun, c :: t =>
    if isSpaceChar c then
      (if inRun then [] else [' ']) ++ collapseWSGo true t
    else c :: collapseWSGo false t

/-- `re.sub(r"\s+", " ", t)`: every maximal whitespace run becomes one space. -/
def collapseWS (t : List Char) : List Char := collapseWSGo false t

/-- `_punct_re.sub(" ", t)` with `_punct_re = re.compile(r"[^a-z0-9\s]")`. -/
def punctStrip (t : List Char) : List Char :=
  t.map (fun c =>
    if ('a' ≤ c ∧ c ≤ 'z') ∨ ('0' ≤ c ∧ c ≤ '9') ∨ isSpaceChar c then c else ' ')

/-- String literal → `List Char` helper. -/
def cs (s : String) : List Char := s.toList

/-! ## Word boundaries and literal whole-word substitution

`re.sub(rf"\b{re.escape(syn)}\b", canon, t)`: `re.escape` makes `syn` a
literal, so the pattern is "the literal `syn` with a word boundary on each
side".  `\b` holds between two positions iff exactly one of the adjacent
characters is a word character. -/

/-- Word character for `\b` (Python `re` on `str`): ASCII alphanumerics, `_`,
and — approximating the unicode word class for the alphabet that actually
occurs in this repository (e.g. `ï`) — all non-ASCII characters. -/
def isWordChar (c : Char) : Bool :=
  ('a' ≤ c && c ≤ 'z') || ('A' ≤ c && c ≤ 'Z') || ('0' ≤ c && c ≤ '9') ||
  c = '_' || 128 ≤ c.toNat

def wordOpt : Option Char → Bool
  | none => false
  | some c => isWordChar c

/-- `\b` between a left and a right neighbouring character (`none` = string
edge). -/
def boundary (l r : Option Char) : Bool := wordOpt l != wordOpt r

/-- One left-to-right `re.sub` pass replacing every `\b`-delimited occurrence
of the literal `syn` by `canon`; `prev` is the character just before the
current position.  A zero-width pattern (empty `syn`, i.e. `\b\b`) inserts
`canon` at each boundary and advances by one, as `re.sub` does.  The fuel
argument only makes the recursion structural: every step consumes at least
one character of the text, so `reSub`'s initial fuel `t.length + 1` can
never run out. -/
def reSubGo (syn canon : List Char) : Nat → Option Char → List Char → List Char
  | _, prev, [] => if syn = [] ∧ boundary prev none then canon else []
  | 0, _, t => t
  | fuel + 1, prev, c :: rest =>
    if syn = [] then
      (if boundary prev (some c) then canon else []) ++
        c :: reSubGo syn canon fuel (some c) rest
    else
      if syn.isPrefixOf (c :: rest) ∧ boundary prev (some c) ∧
         boundary syn.getLast? ((c :: rest).get? syn.length) then
        canon ++ reSubGo syn canon fuel syn.getLast? ((c :: rest).drop syn.length)
      else
        c :: reSubGo syn canon fuel (some c) rest

/-- `re.sub(rf"\b{re.escape syn}\b", canon, t)`. -/
def reSub (syn canon t : List Char) : List Char :=
  reSubGo syn canon (t.length + 1) none t

/-! ## Stable sorting (Python `sorted` / `list.sort` with a key) -/

/-- Insert `x` after every already-placed element it does not strictly
precede; with `before` the strict "must come before" test this reproduces the
stability of Python's sort. -/
def pyInsertBy (before : α → α → Bool) (x : α) : List α → List α
  | [] => [x]
  | y :: ys => if before x y then x :: y :: ys else y :: pyInsertBy before x ys

/-- Stable sort: elements with equal keys keep their original order
(`before x y` must be a strict comparison). -/
def pySortBy (before : α → α → Bool) (l : List α) : List α :=
  l.foldl (fun acc x => pyInsertBy before x acc) []

/-! ## Alias table and `normalize` (`tools/match_topics.py` lines 16–71) -/

/-- `load_aliases(None)`: the built-in table, in dict insertion order. -/
def defaultAliases : List (List Char × List (List Char)) :=
  [ (cs ("naive bayes"), [cs ("nb"), cs ("naïve bayes")]),
    (cs ("k-means"), [cs ("kmeans"), cs ("k means"), cs ("k-means clustering")]),
    (cs ("k-medoids"), [cs ("kmedoids"), cs ("k medoids")]),
    (cs ("hierarchical clustering"),
      [cs ("agglomerative clustering"), cs ("divisive clustering")]),
    (cs ("principal component analysis"), [cs ("pca")]),
    (cs ("support vector machine"),
      [cs ("svm"), cs ("support vector machines"), cs ("support vector classifier")]),
    (cs ("decision tree"), [cs ("dt"), cs ("id3"), cs ("c4.5"), cs ("cart")]),
    (cs ("association rules"),
      [cs ("apriori"), cs ("fp growth"), cs ("frequent pattern"), cs ("market basket")]),
    (cs ("outlier detection"), [cs ("anomaly detection")]),
    (cs ("feature selection"), [cs ("attribute selection")]),
    (cs ("data preprocessing"),
      [cs ("data preparation"), cs ("data cleaning"), cs ("data cleansing")]),
    (cs ("distance measures"),
      [cs ("similarity measures"), cs ("dissimilarity"), cs ("proximity")]),
    (cs ("logistic regression"), [cs ("logit")]),
    (cs ("linear regression"), [cs ("ols")]),
    (cs ("neural networks"), [cs ("ann"), cs ("mlp")]),
    (cs ("k-nearest neighbors"), [cs ("knn"), cs ("k nn"), cs ("k-nn")]),
    (cs ("dimensionality reduction"), [cs ("feature extraction")]),
    (cs ("cross validation"), [cs ("k-fold"), cs ("k fold")]) ]

/-- All (canonical, synonym) pairs of the default alias table, in table
order. -/
def defaultAliasPairs : List (List Char × List Char) :=
  defaultAliases.flatMap (fun p => p.2.map (fun s => (p.1, s)))

def STOPWORDS : List (List Char) :=
  [cs ("the"), cs ("a"), cs ("an"), cs ("of"), cs ("and"), cs ("or"), cs ("to"),
   cs ("for"), cs ("from"), cs ("in"), cs ("on"), cs ("with"), cs ("without"),
   cs ("by"), cs ("as"), cs ("at"), cs ("into"), cs ("over"), cs ("under"),
   cs ("between"), cs ("among"), cs ("against")]

/-- The alias-substitution pass of `normalize`: canonical keys sorted by
descending length (Python's sort; stable, so equal lengths keep dict
insertion order), each of the key's synonyms replaced whole-word. -/
def aliasPass (aliases : List (List Char × List (List Char))) (t : List Char) :
    List Char :=
  (pySortBy (fun p q : List Char × List (List Char) =>
      decide (q.1.length < p.1.length)) aliases).foldl
    (fun t p => p.2.foldl (fun t syn => reSub syn p.1 t) t) t

/-- `normalize(text, aliases)` (`match_topics.py` lines 58–71): lower-case
and trim, substitute aliases, blank out punctuation, collapse whitespace and
trim, then drop stopword tokens and rejoin. -/
def normalize (aliases : List (List Char × List (List Char)))
    (text : List Char) : List Char :=
  joinSpace ((splitWS (strip (collapseWS (punctStrip
    (aliasPass aliases (strip (lowerStr text))))))).filter
      (fun w => decide (w ∉ STOPWORDS)))

/-- `tokens(text)` (`match_topics.py` line 74). -/
def pyTokens (text : List Char) : List (List Char) :=
  (splitWS text).filter (fun w => decide (w ≠ []))

/-! ## `difflib.SequenceMatcher` (used by `char_similarity`)

`char_similarity(a, b) = SequenceMatcher(None, a, b).ratio()`.  The model
below follows CPython's `difflib` with `isjunk = None`: `__chain_b` builds
`b2j` (positions of each character of `b`) and, when `len(b) >= 200`
(autojunk), drops "popular" characters occurring more than `len(b)//100 + 1`
times; `find_longest_match` runs the length-of-common-suffix dynamic
programme over `b2j` followed by the four junk-aware extension loops;
`get_matching_blocks` recursively splits around each longest match.  `ratio`
only uses the total size of the matching blocks, which is unaffected by
`difflib`'s final sorting/merging of adjacent blocks. -/

/-- Autojunk: with `isjunk=None` the junk set is exactly the popular
characters of `b`. -/
def seqIsPopular (b : List Char) (c : Char) : Bool :=
  200 ≤ b.length && b.length / 100 + 1 < b.count c

/-- `b2j.get(c, [])`: ascending positions of `c` in `b`, popular characters
removed. -/
def seqB2j (b : List Char) (c : Char) : List Nat :=
  if seqIsPopular b c then []
  else (List.range b.length).filter (fun j => b.getD j ' ' == c)

/-- `isbjunk = self.bjunk.__contains__`: with `isjunk = None` (as in
`char_similarity`, which calls `SequenceMatcher(None, a, b)`) the junk set
`bjunk` is empty — autojunk's popular characters go to `bpopular` and are
only removed from `b2j` — so the predicate is constantly `false`. -/
def seqIsBJunk (_b : List Char) (_c : Char) : Bool :=
  false

/-- `j2len.get(j, 0)` on the association-list model of the dict. -/
def alookup (m : List (Nat × Nat)) (j : Nat) : Nat :=
  match m.find? (fun p => p.1 == j) with
  | some p => p.2
  | none => 0

/-- Inner loop of `find_longest_match` for one row `i`: walk the ascending
positions `j` of `a[i]` in `b` (`continue` below `blo`, `break` at `bhi`),
extend runs (`k = j2len.get(j-1, 0) + 1`; Python's `j-1` is `-1`, never a
key, when `j = 0`) and track the first maximal `(besti, bestj, bestsize)`. -/
def flmRow (prev : List (Nat × Nat)) (blo bhi i : Nat) :
    List Nat → List (Nat × Nat) → Nat × Nat × Nat →
    List (Nat × Nat) × (Nat × Nat × Nat)
  | [], acc, best => (acc, best)
  | j :: js, acc, best =>
    if j < blo then flmRow prev blo bhi i js acc best
    else if bhi ≤ j then (acc, best)
    else
      let k := (if j = 0 then 0 else alookup prev (j - 1)) + 1
      let best' := if best.2.2 < k then (i + 1 - k, j + 1 - k, k) else best
      flmRow prev blo bhi i js ((j, k) :: acc) best'

/-- Outer loop of `find_longest_match` over the rows `alo, …, ahi-1`. -/
def flmRows (a b : List Char) (blo bhi : Nat) :
    List Nat → List (Nat × Nat) → Nat × Nat × Nat → Nat × Nat × Nat
  | [], _, best => best
  | i :: is, prev, best =>
    let r := flmRow prev blo bhi i (seqB2j b (a.getD i ' ')) [] best
    flmRows a b blo bhi is r.1 r.2

/-- `while besti > alo and bestj > blo and isbjunk(b[bestj-1]) == sense and
a[besti-1] == b[bestj-1]: besti, bestj, bestsize = besti-1, bestj-1,
bestsize+1` (the fuel bounds the number of decrements of `besti`). -/
def extendLo (a b : List Char) (alo blo : Nat) (sense : Bool) :
    Nat → Nat × Nat × Nat → Nat × Nat × Nat
  | 0, best => best
  | fuel + 1, (bi, bj, k) =>
    if alo < bi ∧ blo < bj ∧ seqIsBJunk b (b.getD (bj - 1) ' ') = sense ∧
       a.getD (bi - 1) ' ' = b.getD (bj - 1) ' ' then
      extendLo a b alo blo sense fuel (bi - 1, bj - 1, k + 1)
    else (bi, bj, k)

/-- `while besti+bestsize < ahi and bestj+bestsize < bhi and
isbjunk(b[bestj+bestsize]) == sense and a[besti+bestsize] ==
b[bestj+bestsize]: bestsize += 1`. -/
def extendHi (a b : List Char) (ahi bhi : Nat) (sense : Bool) :
    Nat → Nat × Nat × Nat → Nat × Nat × Nat
  | 0, best => best
  | fuel + 1, (bi, bj, k) =>
    if bi + k < ahi ∧ bj + k < bhi ∧ seqIsBJunk b (b.getD (bj + k) ' ') = sense ∧
       a.getD (bi + k) ' ' = b.getD (bj + k) ' ' then
      extendHi a b ahi bhi sense fuel (bi, bj, k + 1)
    else (bi, bj, k)

/-- `find_longest_match(alo, ahi, blo, bhi)`: dynamic programme, then the
non-junk extensions, then the junk extensions. -/
def flm (a b : List Char) (alo ahi blo bhi : Nat) : Nat × Nat × Nat :=
  let b0 := flmRows a b blo bhi (List.range' alo (ahi - alo)) [] (alo, blo, 0)
  let b1 := extendLo a b alo blo false b0.1 b0
  let b2 := extendHi a b ahi bhi false ahi b1
  let b3 := extendLo a b alo blo true b2.1 b2
  extendHi a b ahi bhi true ahi b3

/-- `get_matching_blocks`'s recursive splitting (the queue in `difflib`);
only the set of blocks matters for `ratio`, so they are listed in sorted
order.  The fuel strictly exceeds the size of the window, which shrinks at
every recursive call. -/
def mblocks (a b : List Char) : Nat → Nat → Nat → Nat → Nat → List (Nat × Nat × Nat)
  | 0, _, _, _, _ => []
  | fuel + 1, alo, ahi, blo, bhi =>
    let m := flm a b alo ahi blo bhi
    if m.2.2 = 0 then []
    else
      (if alo < m.1 ∧ blo < m.2.1 then mblocks a b fuel alo m.1 blo m.2.1 else []) ++
      m :: (if m.1 + m.2.2 < ahi ∧ m.2.1 + m.2.2 < bhi then
              mblocks a b fuel (m.1 + m.2.2) ahi (m.2.1 + m.2.2) bhi else [])

/-- `sum(triple[-1] for triple in self.get_matching_blocks())`. -/
def totalMatched (a b : List Char) : Nat :=
  ((mblocks a b (a.length + b.length + 1) 0 a.length 0 b.length).map
    (fun m => m.2.2)).sum

/-- Length of the maximal run of non-popular positions of `a` ending at
position `i` — the value of the diagonal chain of the `find_longest_match`
dynamic programme when the matcher compares `a` with itself. -/
def dchain (a : List Char) : Nat → Nat
  | 0 => if seqIsPopular a (a.getD 0 ' ') then 0 else 1
  | i + 1 => if seqIsPopular a (a.getD (i + 1) ' ') then 0 else dchain a i + 1

/-- `char_similarity(a, b)` (`match_topics.py` line 96); `_calculate_ratio`
returns 1.0 when both strings are empty. -/
def charSimilarity (a b : List Char) : ℚ :=
  if a.length + b.length = 0 then 1
  else 2 * (totalMatched a b : ℚ) / ((a.length : ℚ) + (b.length : ℚ))

/-! ## Scoring (`match_topics.py` lines 78–114) -/

/-- `jaccard(a_tokens, b_tokens)`. -/
def jaccard (a b : List (List Char)) : ℚ :=
  if a = [] ∨ b = [] then 0
  else
    let inter := (a.toFinset ∩ b.toFinset).card
    let union := (a.toFinset ∪ b.toFinset).card
    if union = 0 then 0 else (inter : ℚ) / (union : ℚ)

/-- `token_overlap(a_tokens, b_tokens)`. -/
def tokenOverlap (a b : List (List Char)) : ℚ :=
  if a = [] ∨ b = [] then 0
  else
    let inter := (a.toFinset ∩ b.toFinset).card
    let denom := min a.toFinset.card b.toFinset.card
    if denom = 0 then 0 else (inter : ℚ) / (denom : ℚ)

/-- `combined_score(a, b) = 0.40*c + 0.30*j + 0.30*o`. -/
def combinedScore (a b : List Char) : ℚ :=
  let aToks := pyTokens a
  let bToks := pyTokens b
  (40 / 100) * charSimilarity a b + (30 / 100) * jaccard aToks bToks +
    (30 / 100) * tokenOverlap aToks bToks

/-- `confidence(score)`. -/
def confidence (score : ℚ) : List Char :=
  if 85 / 100 ≤ score then cs ("high")
  else if 70 / 100 ≤ score then cs ("medium")
  else cs ("low")

/-- Round-half-to-even to an integer (Python `round` on exact values). -/
def halfEven (x : ℚ) : Int :=
  if x - Int.floor x < 1 / 2 then Int.floor x
  else if (1 : ℚ) / 2 < x - Int.floor x then Int.floor x + 1
  else if Even (Int.floor x) then Int.floor x else Int.floor x + 1

/-- `round(x, 3)` on the exact-rational model of floats. -/
def pyRound3 (x : ℚ) : ℚ := (halfEven (x * 1000) : ℚ) / 1000

/-! ## Parsing the two artifacts (`match_topics.py` lines 117–153) -/

/-- Python `int(s)` on an already-stripped string: optional sign then ASCII
digits (digit-grouping underscores do not occur in the artifacts). -/
def pyInt (s : List Char) : Option Int :=
  match s with
  | [] => none
  | c :: rest =>
    let signed : Int × List Char :=
      if c = '-' then (-1, rest) else if c = '+' then (1, rest) else (1, c :: rest)
    if signed.2 ≠ [] ∧ signed.2.all (fun d => '0' ≤ d && d ≤ '9') then
      some (signed.1 * (signed.2.foldl (fun n d => n * 10 + ((d.toNat : Int) - 48)) 0))
    else none

/-- Body of the `parse_slides` loop for one raw line: `none` means the line
contributes nothing. -/
def parseSlidesLine (raw : List Char) : Option (Option Int × List Char) :=
  if strip raw = [] then none
  else if '|' ∈ strip raw then
    match pyInt (strip ((strip raw).takeWhile (fun c => c ≠ '|'))) with
    | some n =>
      if strip (((strip raw).dropWhile (fun c => c ≠ '|')).drop 1) = [] then none
      else some (some n, strip (((strip raw).dropWhile (fun c => c ≠ '|')).drop 1))
    | none => some (none, strip raw)
  else some (none, strip raw)

/-- `parse_slides(lines)` (`match_topics.py` lines 117–140). -/
def parseSlides (lines : List (List Char)) : List (Option Int × List Char) :=
  lines.filterMap parseSlidesLine

/-- `parse_exam(lines)` (`match_topics.py` lines 143–153): strip, drop blank
lines and fragments shorter than 4 characters. -/
def parseExam (lines : List (List Char)) : List (List Char) :=
  lines.filterMap (fun raw =>
    if strip raw = [] then none
    else if (strip raw).length < 4 then none
    else some (strip raw))

/-! ## The matcher (`match_topics.py` lines 156–195) -/

structure MatchRecord where
  page : Option Int
  slide_topic : List Char
  exam_question : List Char
  score : ℚ
  confidence : List Char
deriving DecidableEq, Repr

/-- `if q in unmatched_exam: unmatched_exam.remove(q)` (removes the first
occurrence). -/
def claimStep (ue : List (List Char)) (q : List Char) : List (List Char) :=
  if q ∈ ue then ue.erase q else ue

/-- The `for s, q in top` loop of one topic iteration: emit a record per
surviving pair (score rounded to 3 places) and mark each claimed question. -/
def emitTop (page : Option Int) (topic : List Char) :
    List (ℚ × List Char) → List (List Char) → List MatchRecord × List (List Char)
  | [], ue => ([], ue)
  | (s, q) :: rest, ue =>
    let r := emitTop page topic rest (claimStep ue q)
    ({ page := page, slide_topic := topic, exam_question := q,
       score := pyRound3 s, confidence := confidence s } :: r.1, r.2)

/-- One topic iteration's candidate selection (`match_topics.py` lines
171–178): normalise the topic, keep the questions scoring at least
`min_score`, sort by descending score (stable, as Python's `list.sort`) and
take the first `max_matches`. -/
def topFor (aliases : List (List Char × List (List Char)))
    (normExam : List (List Char × List Char)) (minScore : ℚ) (maxMatches : Nat)
    (topic : List Char) : List (ℚ × List Char) :=
  let normTopic := normalize aliases topic
  let scored := normExam.filterMap (fun oq =>
    let s := combinedScore normTopic oq.2
    if minScore ≤ s then some (s, oq.1) else none)
  (pySortBy (fun x y : ℚ × List Char => decide (y.1 < x.1)) scored).take maxMatches

/-- The main loop of `match_topics` over the slide entries, threading the
"still unmatched questions" working list. -/
def mtGo (aliases : List (List Char × List (List Char)))
    (normExam : List (List Char × List Char)) (minScore : ℚ) (maxMatches : Nat) :
    List (Option Int × List Char) → List (List Char) →
    List MatchRecord × List (Option Int × List Char) × List (List Char)
  | [], ue => ([], [], ue)
  | (page, topic) :: rest, ue =>
    if topFor aliases normExam minScore maxMatches topic = [] then
      ((mtGo aliases normExam minScore maxMatches rest ue).1,
       (page, topic) :: (mtGo aliases normExam minScore maxMatches rest ue).2.1,
       (mtGo aliases normExam minScore maxMatches rest ue).2.2)
    else
      ((emitTop page topic (topFor aliases normExam minScore maxMatches topic) ue).1 ++
         (mtGo aliases normExam minScore maxMatches rest
           (emitTop page topic (topFor aliases normExam minScore maxMatches topic) ue).2).1,
       (mtGo aliases normExam minScore maxMatches rest
         (emitTop page topic (topFor aliases normExam minScore maxMatches topic) ue).2).2.1,
       (mtGo aliases normExam minScore maxMatches rest
         (emitTop page topic (topFor aliases normExam minScore maxMatches topic) ue).2).2.2)

/-- `match_topics(slides, exam, aliases, min_score, max_matches)`; returns
`(results, unmatched_slides, unmatched_exam)`.  `max_matches` is modelled as
a natural number (`scored[:max_matches]` = `List.take`). -/
def matchTopics (slides : List (Option Int × List Char)) (exam : List (List Char))
    (aliases : List (List Char × List (List Char))) (minScore : ℚ)
    (maxMatches : Nat) :
    List MatchRecord × List (Option Int × List Char) × List (List Char) :=
  mtGo aliases (exam.map (fun q => (q, normalize aliases q))) minScore maxMatches
    slides exam

/-! ## Title Selector (`tools/extract_slide_titles.py` lines 59–109)

The pdfminer layout stream is the external collaborator: a page is a list of
raw positioned lines (text as emitted, bounding box, average glyph size or
`none` when the line has no measurable characters). -/

structure RawLine where
  text : List Char
  x0 : ℚ
  y0 : ℚ
  x1 : ℚ
  y1 : ℚ
  avgSize : Option ℚ
deriving DecidableEq, Repr

structure LineInfo where
  text : List Char
  x0 : ℚ
  y0 : ℚ
  x1 : ℚ
  y1 : ℚ
  avgSize : ℚ
deriving DecidableEq, Repr, Inhabited

/-- The per-page collection loop: strip the text, skip empty lines and lines
without a measurable glyph size (lines 68–76). -/
def buildLines (raws : List RawLine) : List LineInfo :=
  raws.filterMap (fun r =>
    let t := strip r.text
    if t = [] then none
    else match r.avgSize with
      | none => none
      | some sz => some ⟨t, r.x0, r.y0, r.x1, r.y1, sz⟩)

/-- The three merge conditions of lines 101–104.  (`min/max` sizes: the
sources always carry a positive glyph size; a `0/0` division, on which
CPython would raise, is modelled as `0`.) -/
def mergeOk (mergeThreshold : ℚ) (title ln : LineInfo) : Bool :=
  decide (mergeThreshold ≤ min title.avgSize ln.avgSize / max title.avgSize ln.avgSize ∧
    title.y0 - ln.y1 ≤ title.avgSize * (16 / 10) ∧
    |ln.x0 - title.x0| ≤ max 10 (title.avgSize * (8 / 10)))

/-- The `for ln in candidates_below` loop (lines 100–106): concatenate the
first candidate satisfying all three conditions, then `break`. -/
def mergeLoop (mergeThreshold : ℚ) (title : LineInfo) : List LineInfo → List Char
  | [] => title.text
  | ln :: rest =>
    if mergeOk mergeThreshold title ln then strip (title.text ++ ' ' :: ln.text)
    else mergeLoop mergeThreshold title rest

/-- Descending stable sort key of line 90: the tuple `(avg_size, y1)`,
compared lexicographically as in Python. -/
def titleBefore (p q : LineInfo) : Bool :=
  decide (q.avgSize < p.avgSize ∨ (q.avgSize = p.avgSize ∧ q.y1 < p.y1))

/-- `page_height` with the `if not page_height: page_height = 842.0`
fallback (line 62–64; Python's falsiness catches both `None` and `0.0`). -/
def pageHeightVal (pageHeight : Option ℚ) : ℚ :=
  match pageHeight with
  | none => 842
  | some x => if x = 0 then 842 else x

/-- Lines of the top area (`top_cut = page_height * (1 - top_ratio)`,
`top_lines = [ln for ln in lines if ln.y1 >= top_cut]`, line 83–84). -/
def topAreaLines (h topRatio : ℚ) (lines : List LineInfo) : List LineInfo :=
  lines.filter (fun ln => decide (h * (1 - topRatio) ≤ ln.y1))

/-- `top_lines` after the fallback and the in-place sort of line 90. -/
def titleSorted (h topRatio : ℚ) (lines : List LineInfo) : List LineInfo :=
  pySortBy titleBefore
    (if topAreaLines h topRatio lines = [] then lines else topAreaLines h topRatio lines)

/-- `title = top_lines[0]` (line 91). -/
def titleOf (h topRatio : ℚ) (lines : List LineInfo) : LineInfo :=
  (titleSorted h topRatio lines).headD default

/-- The `lines` list as seen by line 95: when the top-area filter was empty,
`top_lines` *is* `lines` (no new list is built), so the in-place sort of
line 90 has reordered `lines` itself. -/
def linesAfterSelect (h topRatio : ℚ) (lines : List LineInfo) : List LineInfo :=
  if topAreaLines h topRatio lines = [] then titleSorted h topRatio lines else lines

/-- `candidates_below` (lines 95–97): lines strictly below the title by
bottom edge (the second filter conjunct of line 95 is identically true),
sorted by vertical proximity of their top edge to the title's bottom edge. -/
def belowSorted (h topRatio : ℚ) (lines : List LineInfo) : List LineInfo :=
  pySortBy (fun p q : LineInfo =>
      decide (|p.y1 - (titleOf h topRatio lines).y0| <
              |q.y1 - (titleOf h topRatio lines).y0|))
    ((linesAfterSelect h topRatio lines).filter (fun ln =>
      decide (ln.y0 < (titleOf h topRatio lines).y0 ∧
        0 ≤ |ln.avgSize - (titleOf h topRatio lines).avgSize| /
              max (titleOf h topRatio lines).avgSize (1 / 1000000))))

/-- One page of `extract_titles` (lines 61–108): empty string for a page
with no usable lines; otherwise largest-font line of the top area (fallback:
whole page) with at most one merged continuation line. -/
def pageTitle (raws : List RawLine) (pageHeight : Option ℚ)
    (topRatio mergeThreshold : ℚ) : List Char :=
  if buildLines raws = [] then []
  else mergeLoop mergeThreshold
    (titleOf (pageHeightVal pageHeight) topRatio (buildLines raws))
    (belowSorted (pageHeightVal pageHeight) topRatio (buildLines raws))

/-! ## Question segmentation (`tools/extract_exam_questions.py` lines 71–125) -/

def isDigitChar (c : Char) : Bool := '0' ≤ c && c ≤ '9'

def isAsciiLetter (c : Char) : Bool := ('a' ≤ c && c ≤ 'z') || ('A' ≤ c && c ≤ 'Z')

/-- The character class `[.)]`. -/
def dotParen (c : Char) : Bool := c = '.' || c = ')'

/-- The character class `[-•∙•◦·]` (the literal `•` repeats
`•`). -/
def bulletChars : List Char := ['-', '•', '∙', '◦', '·']

/-- Candidate lengths consumed by the group of `BULLET_RE =
^(?:[-•∙•◦·]|\d{1,3}[.)]|\(?\d{1,3}\)?[.)]?|[a-zA-Z][.)])\s+`, in
the order a backtracking engine tries them (alternatives left to right,
greedy quantifiers longest first). -/
def bulletGroupCands (t : List Char) : List Nat :=
  let digitsAt : Nat → Nat := fun p => ((t.drop p).takeWhile isDigitChar).length
  let alt1 : List Nat :=
    match t.get? 0 with
    | some c => if c ∈ bulletChars then [1] else []
    | none => []
  let alt2 : List Nat :=
    (List.range' 1 (min 3 (digitsAt 0))).reverse.filterMap (fun d =>
      match t.get? d with
      | some c => if dotParen c then some (d + 1) else none
      | none => none)
  let alt3 : List Nat :=
    ((if t.get? 0 = some '(' then [1] else []) ++ [0]).flatMap (fun lp =>
      (List.range' 1 (min 3 (digitsAt lp))).reverse.flatMap (fun d =>
        ((if t.get? (lp + d) = some ')' then [1] else []) ++ [0]).flatMap (fun rp =>
          ((match t.get? (lp + d + rp) with
            | some c => if dotParen c then [1] else []
            | none => []) ++ [0]).map (fun dot => lp + d + rp + dot))))
  let alt4 : List Nat :=
    match t.get? 0, t.get? 1 with
    | some c0, some c1 => if isAsciiLetter c0 && dotParen c1 then [2] else []
    | _, _ => []
  alt1 ++ alt2 ++ alt3 ++ alt4

/-- `BULLET_RE.match(text)`: total length of the match (group plus the
mandatory greedy `\s+`), or `none`. -/
def bulletMatch (t : List Char) : Option Nat :=
  (bulletGroupCands t).findSome? (fun k =>
    let w := ((t.drop k).takeWhile isSpaceChar).length
    if w = 0 then none else some (k + w))

/-- `HEADER_RE.match(text.lower())` with `HEADER_RE =
^(?:page\s*\d+|\d{4}|section|part|final|midterm|exam)\b` (the argument is
already lower-cased by the caller, subsuming `re.I`). -/
def headerMatch (t : List Char) : Bool :=
  let digitsAt : Nat → Nat := fun p => ((t.drop p).takeWhile isDigitChar).length
  let pageCands : List Nat :=
    if (cs ("page")).isPrefixOf t then
      let wmax := ((t.drop 4).takeWhile isSpaceChar).length
      (List.range (wmax + 1)).reverse.flatMap (fun w =>
        (List.range' 1 (digitsAt (4 + w))).reverse.map (fun d => 4 + w + d))
    else []
  let yearCand : List Nat := if 4 ≤ digitsAt 0 then [4] else []
  let litCands : List Nat :=
    ([cs ("section"), cs ("part"), cs ("final"), cs ("midterm"),
      cs ("exam")].filter (fun w => w.isPrefixOf t)).map List.length
  (pageCands ++ yearCand ++ litCands).any (fun k =>
    boundary (t.get? (k - 1)) (t.get? k))

structure QLine where
  page : Int
  text : List Char
  x0 : ℚ
  y0 : ℚ
  x1 : ℚ
  y1 : ℚ
  avgSize : ℚ
deriving DecidableEq, Repr

/-- The `flush()` closure of `extract_questions` (lines 81–88): join the
buffered fragments, collapse whitespace, keep the item if non-empty. -/
def flushItems (items buf : List (List Char)) : List (List Char) :=
  if buf = [] then items
  else
    let s := collapseWS (strip (joinSpace (buf.map strip)))
    if s = [] then items else items ++ [s]

/-- One iteration of the `for ln in lines` loop of `extract_questions`
(lines 90–115).  State: `(items, buf, last_y, last_size)`. -/
def qStep (st : List (List Char) × List (List Char) × Option ℚ × Option ℚ)
    (ln : QLine) : List (List Char) × List (List Char) × Option ℚ × Option ℚ :=
  if headerMatch (lowerStr ln.text) then st
  else
    let items := st.1
    let buf := st.2.1
    let p1 : List (List Char) × List (List Char) :=
      match st.2.2.1, st.2.2.2 with
      | some y, some sz =>
        if max 20 ((22 / 10) * sz) < y - ln.y1 then (flushItems items buf, [])
        else (items, buf)
      | _, _ => (items, buf)
    let p2 : List (List Char) × List (List Char) × List Char :=
      match bulletMatch ln.text with
      | some k => (flushItems p1.1 p1.2, [], ln.text.drop k)
      | none => (p1.1, p1.2, ln.text)
    let buf3 := p2.2.1 ++ [p2.2.2]
    let p3 : List (List Char) × List (List Char) :=
      if (stripRight p2.2.2).getLast? = some '?' then (flushItems p2.1 buf3, [])
      else (p2.1, buf3)
    (p3.1, p3.2, some ln.y1, if ln.avgSize ≠ 0 then some ln.avgSize else st.2.2.2)

/-- The final dedup-preserving-order loop (lines 119–125). -/
def dedupGo (seen : List (List Char)) : List (List Char) → List (List Char)
  | [] => []
  | x :: xs => if x ∈ seen then dedupGo seen xs else x :: dedupGo (x :: seen) xs

/-- `extract_questions(lines)` (lines 75–125). -/
def extractQuestions (lines : List QLine) : List (List Char) :=
  let st := lines.foldl qStep ([], [], none, none)
  dedupGo [] (flushItems st.1 st.2.1)

/-- Concrete three-line page used to exercise the title-merge loop: the
largest line is the title, the vertically closest line below it has a much
smaller glyph size, and a farther line matches the title's size. -/
def c6Raws : List RawLine :=
  [{ text := cs ("Big"), x0 := 0, y0 := 100, x1 := 100, y1 := 110, avgSize := some 10 },
   { text := cs ("a"), x0 := 0, y0 := 90, x1 := 100, y1 := 95, avgSize := some 5 },
   { text := cs ("b"), x0 := 0, y0 := 60, x1 := 100, y1 := 88, avgSize := some 10 }]

/-! ## Derived counting functions used by the claims -/

/-- Number of emitted records whose `slide_topic` is `t`. -/
def recordTopicCount (rs : List MatchRecord) (t : List Char) : Nat :=
  (rs.filter (fun r => decide (r.slide_topic = t))).length

/-- Number of slide entries whose topic string is `t`. -/
def topicEntryCount (slides : List (Option Int × List Char)) (t : List Char) : Nat :=
  (slides.filter (fun p => decide (p.2 = t))).length

/-- Number of emitted records whose `exam_question` is `q`. -/
def recordQuestionCount (rs : List MatchRecord) (q : List Char) : Nat :=
  (rs.filter (fun r => decide (r.exam_question = q))).length

/-- Number of pairs in a topic's `top` list carrying question `q`. -/
def topQuestionCount (top : List (ℚ × List Char)) (q : List Char) : Nat :=
  (top.filter (fun p => decide (p.2 = q))).length

/-! # Lemmas

## The stable sort -/

theorem mem_pyInsertBy {α : Type _} {before : α → α → Bool} {x y : α} {l : List α} :
    y ∈ pyInsertBy before x l ↔ y = x ∨ y ∈ l := by
  induction l with
  | nil => simp [pyInsertBy]
  | cons z zs ih =>
    simp only [pyInsertBy]
    split
    · simp
    · simp [ih]; tauto

theorem mem_pySortFold {α : Type _} {before : α → α → Bool} {l : List α}
    {acc : List α} {y : α} :
    y ∈ l.foldl (fun acc x => pyInsertBy before x acc) acc ↔ y ∈ acc ∨ y ∈ l := by
  induction l generalizing acc with
  | nil => simp
  | cons z zs ih =>
    rw [List.foldl_cons, ih]
    simp [mem_pyInsertBy]
    tauto

theorem mem_pySortBy {α : Type _} {before : α → α → Bool} {l : List α} {y : α} :
    y ∈ pySortBy before l ↔ y ∈ l := by
  rw [pySortBy, mem_pySortFold]
  simp

/-! ## Structure of `emitTop` and `mtGo` -/

theorem emitTop_records (page : Option Int) (topic : List Char)
    (top : List (ℚ × List Char)) (ue : List (List Char)) :
    (emitTop page topic top ue).1 = top.map (fun sq =>
      { page := page, slide_topic := topic, exam_question := sq.2,
        score := pyRound3 sq.1, confidence := confidence sq.1 }) := by
  induction top generalizing ue with
  | nil => rfl
  | cons sq rest ih =>
    obtain ⟨s, q⟩ := sq
    simp [emitTop, ih]

theorem emitTop_ue (page : Option Int) (topic : List Char)
    (top : List (ℚ × List Char)) (ue : List (List Char)) :
    (emitTop page topic top ue).2 = top.foldl (fun u sq => claimStep u sq.2) ue := by
  induction top generalizing ue with
  | nil => rfl
  | cons sq rest ih =>
    obtain ⟨s, q⟩ := sq
    simp [emitTop, ih]

theorem count_claimStep (ue : List (List Char)) (q x : List Char) :
    (claimStep ue q).count x
      = ue.count x - (if x = q ∧ q ∈ ue then 1 else 0) := by
  unfold claimStep
  split
  · rename_i hq
    rw [List.count_erase]
    by_cases hx : x = q
    · subst hx
      simp [hq]
    · have h2 : ¬ q = x := fun h => hx h.symm
      simp [hx, h2]
  · rename_i hq
    simp [hq]

theorem topQuestionCount_cons (sq : ℚ × List Char) (rest : List (ℚ × List Char))
    (q : List Char) :
    topQuestionCount (sq :: rest) q
      = (if sq.2 = q then 1 else 0) + topQuestionCount rest q := by
  simp only [topQuestionCount, List.filter_cons]
  split
  · rename_i h
    simp at h
    simp [h]
    omega
  · rename_i h
    simp at h
    simp [h]

theorem count_claimFold (top : List (ℚ × List Char)) (ue : List (List Char))
    (q : List Char) :
    (top.foldl (fun u sq => claimStep u sq.2) ue).count q
      = ue.count q - min (ue.count q) (topQuestionCount top q) := by
  induction top generalizing ue with
  | nil => simp [topQuestionCount]
  | cons sq rest ih =>
    rw [List.foldl_cons, ih, count_claimStep ue sq.2 q, topQuestionCount_cons]
    by_cases hq : q = sq.2
    · rw [hq]
      by_cases hin : sq.2 ∈ ue
      · have hpos : 0 < ue.count sq.2 := List.count_pos_iff.mpr hin
        rw [if_pos (And.intro rfl hin), if_pos rfl]
        omega
      · have hz : ue.count sq.2 = 0 := by
          rcases Nat.eq_zero_or_pos (ue.count sq.2) with h | h
          · exact h
          · exact absurd (List.count_pos_iff.mp h) hin
        have hneg : ¬ (sq.2 = sq.2 ∧ sq.2 ∈ ue) := fun h => hin h.2
        rw [if_neg hneg, if_pos rfl]
        omega
    · have h1 : ¬ (q = sq.2 ∧ sq.2 ∈ ue) := fun h => hq h.1
      have h2 : ¬ (sq.2 = q) := fun h => hq h.symm
      rw [if_neg h1, if_neg h2]
      omega

theorem recordQuestionCount_append (a b : List MatchRecord) (q : List Char) :
    recordQuestionCount (a ++ b) q
      = recordQuestionCount a q + recordQuestionCount b q := by
  simp [recordQuestionCount, List.filter_append]

theorem recordTopicCount_append (a b : List MatchRecord) (t : List Char) :
    recordTopicCount (a ++ b) t = recordTopicCount a t + recordTopicCount b t := by
  simp [recordTopicCount, List.filter_append]

theorem recordQuestionCount_emit (page : Option Int) (topic : List Char)
    (top : List (ℚ × List Char)) (ue : List (List Char)) (q : List Char) :
    recordQuestionCount (emitTop page topic top ue).1 q = topQuestionCount top q := by
  rw [emitTop_records]
  have hcomp : ((fun r : MatchRecord => decide (r.exam_question = q)) ∘
      (fun sq : ℚ × List Char =>
        ({ page := page, slide_topic := topic, exam_question := sq.2,
           score := pyRound3 sq.1, confidence := confidence sq.1 } : MatchRecord)))
      = fun sq : ℚ × List Char => decide (sq.2 = q) := rfl
  simp only [recordQuestionCount, topQuestionCount, List.filter_map,
    List.length_map, hcomp]

theorem recordTopicCount_emit (page : Option Int) (topic : List Char)
    (top : List (ℚ × List Char)) (ue : List (List Char)) (t : List Char) :
    recordTopicCount (emitTop page topic top ue).1 t
      = if topic = t then top.length else 0 := by
  rw [emitTop_records]
  have hcomp : ((fun r : MatchRecord => decide (r.slide_topic = t)) ∘
      (fun sq : ℚ × List Char =>
        ({ page := page, slide_topic := topic, exam_question := sq.2,
           score := pyRound3 sq.1, confidence := confidence sq.1 } : MatchRecord)))
      = fun _ : ℚ × List Char => decide (topic = t) := rfl
  simp only [recordTopicCount, List.filter_map, List.length_map, hcomp]
  by_cases h : topic = t
  · simp [h]
  · simp [h]

theorem topFor_length_le (aliases : List (List Char × List (List Char)))
    (normExam : List (List Char × List Char)) (ms : ℚ) (mm : Nat)
    (topic : List Char) :
    (topFor aliases normExam ms mm topic).length ≤ mm := by
  simp only [topFor, List.length_take]
  exact Nat.min_le_left _ _

theorem topFor_mem {aliases : List (List Char × List (List Char))}
    {normExam : List (List Char × List Char)} {ms : ℚ} {mm : Nat}
    {topic : List Char} {sq : ℚ × List Char}
    (h : sq ∈ topFor aliases normExam ms mm topic) :
    ms ≤ sq.1 ∧ sq.2 ∈ normExam.map Prod.fst := by
  have h1 : sq ∈ pySortBy (fun x y : ℚ × List Char => decide (y.1 < x.1))
      (normExam.filterMap (fun oq =>
        if ms ≤ combinedScore (normalize aliases topic) oq.2 then
          some (combinedScore (normalize aliases topic) oq.2, oq.1)
        else none)) := List.mem_of_mem_take h
  rw [mem_pySortBy] at h1
  obtain ⟨oq, hoq, heq⟩ := List.mem_filterMap.mp h1
  split at heq
  · rename_i hle
    cases heq
    exact ⟨hle, List.mem_map.mpr ⟨oq, hoq, rfl⟩⟩
  · cases heq

/-! ## The main matcher loop -/

theorem mtGo_records_spec (aliases : List (List Char × List (List Char)))
    (normExam : List (List Char × List Char)) (ms : ℚ) (mm : Nat) :
    ∀ (slides : List (Option Int × List Char)) (ue : List (List Char)),
    ∀ r ∈ (mtGo aliases normExam ms mm slides ue).1,
    ∃ s, ms ≤ s ∧ r.score = pyRound3 s ∧ r.exam_question ∈ normExam.map Prod.fst := by
  intro slides
  induction slides with
  | nil => intro ue r hr; cases hr
  | cons pt rest ih =>
    intro ue r hr
    obtain ⟨page, topic⟩ := pt
    rw [mtGo] at hr
    split at hr
    · exact ih ue r hr
    · rw [emitTop_records] at hr
      rcases List.mem_append.mp hr with hr | hr
      · obtain ⟨sq, hsq, rfl⟩ := List.mem_map.mp hr
        obtain ⟨hle, hmem⟩ := topFor_mem hsq
        exact ⟨sq.1, hle, rfl, hmem⟩
      · exact ih _ r hr

theorem mtGo_us_mem (aliases : List (List Char × List (List Char)))
    (normExam : List (List Char × List Char)) (ms : ℚ) (mm : Nat) :
    ∀ (slides : List (Option Int × List Char)) (ue : List (List Char)),
    ∀ pt ∈ (mtGo aliases normExam ms mm slides ue).2.1, pt ∈ slides := by
  intro slides
  induction slides with
  | nil => intro ue pt h; cases h
  | cons e rest ih =>
    intro ue pt h
    obtain ⟨page, topic⟩ := e
    rw [mtGo] at h
    split at h
    · rcases List.mem_cons.mp h with h | h
      · rw [h]; exact List.mem_cons_self _ _
      · exact List.mem_cons_of_mem _ (ih ue pt h)
    · exact List.mem_cons_of_mem _ (ih _ pt h)

theorem mtGo_topic_count (aliases : List (List Char × List (List Char)))
    (normExam : List (List Char × List Char)) (ms : ℚ) (mm : Nat) (t : List Char) :
    ∀ (slides : List (Option Int × List Char)) (ue : List (List Char)),
    recordTopicCount (mtGo aliases normExam ms mm slides ue).1 t
      ≤ mm * topicEntryCount slides t := by
  intro slides
  induction slides with
  | nil => intro ue; simp [mtGo, recordTopicCount, topicEntryCount]
  | cons e rest ih =>
    intro ue
    obtain ⟨page, topic⟩ := e
    have hcnt : topicEntryCount ((page, topic) :: rest) t
        = (if topic = t then 1 else 0) + topicEntryCount rest t := by
      simp only [topicEntryCount, List.filter_cons]
      split
      · rename_i h; simp at h; simp [h]; omega
      · rename_i h; simp at h; simp [h]
    rw [mtGo]
    split
    · rw [hcnt]
      calc recordTopicCount (mtGo aliases normExam ms mm rest ue).1 t
          ≤ mm * topicEntryCount rest t := ih ue
        _ ≤ mm * ((if topic = t then 1 else 0) + topicEntryCount rest t) := by
            apply Nat.mul_le_mul_left
            omega
    · rw [recordTopicCount_append, recordTopicCount_emit, hcnt,
        Nat.mul_add]
      have h1 : (if topic = t then (topFor aliases normExam ms mm topic).length
          else 0) ≤ mm * (if topic = t then 1 else 0) := by
        split
        · simpa using topFor_length_le aliases normExam ms mm topic
        · simp
      exact Nat.add_le_add h1 (ih _)

theorem mtGo_ue_count (aliases : List (List Char × List (List Char)))
    (normExam : List (List Char × List Char)) (ms : ℚ) (mm : Nat) (q : List Char) :
    ∀ (slides : List (Option Int × List Char)) (ue : List (List Char)),
    (mtGo aliases normExam ms mm slides ue).2.2.count q
      = ue.count q
        - min (ue.count q)
            (recordQuestionCount (mtGo aliases normExam ms mm slides ue).1 q) := by
  intro slides
  induction slides with
  | nil => intro ue; simp [mtGo, recordQuestionCount]
  | cons e rest ih =>
    intro ue
    obtain ⟨page, topic⟩ := e
    rw [mtGo]
    split
    · exact ih ue
    · have h1 := ih (emitTop page topic (topFor aliases normExam ms mm topic) ue).2
      have h2 : (emitTop page topic (topFor aliases normExam ms mm topic) ue).2.count q
          = ue.count q
            - min (ue.count q)
                (topQuestionCount (topFor aliases normExam ms mm topic) q) := by
        rw [emitTop_ue, count_claimFold]
      rw [recordQuestionCount_append, recordQuestionCount_emit]
      rw [h1, h2]
      omega

/-! ## Rounding error bound -/

theorem pyRound3_close (x : ℚ) : x - 1/2000 ≤ pyRound3 x ∧ pyRound3 x ≤ x + 1/2000 := by
  have h1 : (Int.floor (x * 1000) : ℚ) ≤ x * 1000 := Int.floor_le _
  have h2 : x * 1000 < Int.floor (x * 1000) + 1 := Int.lt_floor_add_one _
  unfold pyRound3 halfEven
  split
  · rename_i h3
    constructor <;> [linarith; linarith]
  split
  · rename_i h3 h4
    push_cast
    constructor <;> [linarith; linarith]
  split
  · rename_i h3 h4 h5
    have h6 : x * 1000 - Int.floor (x * 1000) = 1/2 := by linarith
    constructor <;> [linarith; linarith]
  · rename_i h3 h4 h5
    have h6 : x * 1000 - Int.floor (x * 1000) = 1/2 := by linarith
    push_cast
    constructor <;> [linarith; linarith]

/-! ## Elements of `parseExam` and `parseSlides` -/

theorem parseExam_mem_length {lines : List (List Char)} {q : List Char}
    (h : q ∈ parseExam lines) : 4 ≤ q.length := by
  obtain ⟨raw, _, heq⟩ := List.mem_filterMap.mp h
  split at heq
  · cases heq
  · split at heq
    · cases heq
    · rename_i hlen
      cases heq
      omega

theorem parseSlidesLine_topic_ne {raw : List Char} {pt : Option Int × List Char}
    (h : parseSlidesLine raw = some pt) : pt.2 ≠ [] := by
  unfold parseSlidesLine at h
  split at h
  · cases h
  · rename_i hne
    split at h
    · split at h
      · split at h
        · cases h
        · rename_i hte
          cases h
          exact hte
      · cases h
        exact hne
    · cases h
      exact hne

theorem parseSlides_topic_ne {lines : List (List Char)} {pt : Option Int × List Char}
    (h : pt ∈ parseSlides lines) : pt.2 ≠ [] := by
  obtain ⟨raw, _, heq⟩ := List.mem_filterMap.mp h
  exact parseSlidesLine_topic_ne heq

/-! # The claims -/

/-- **C1, counterexample.**  The per-topic cap is claimed to bound, for every
topic string, the number of emitted `MatchRecord`s by `maxMatches` "even when
the same topic string occurs in several (page, topic) input pairs".  With the
topic string `"ab"` occurring in two slide entries, one exam question `"ab"`,
`min_score = 0` and `max_matches = 1`, `match_topics` emits **two** records
with topic `"ab"`. -/
theorem matchTopics_cap_violation :
    ¬ recordTopicCount
        (matchTopics [(some 1, cs ("ab")), (some 2, cs ("ab"))] [cs ("ab")] [] 0 1).1
        (cs ("ab")) ≤ 1 := by
  with_unfolding_all decide

/-- **C1, amended.**  The cap is per slide entry, not per topic string: for
every topic string `t`, the number of emitted MatchRecords with topic `t` is
at most `maxMatches` times the number of slide entries carrying `t` (so it is
at most `maxMatches` whenever `t` occurs in at most one entry). -/
theorem matchTopics_cap_per_entry (slides : List (Option Int × List Char))
    (exam : List (List Char)) (aliases : List (List Char × List (List Char)))
    (minScore : ℚ) (maxMatches : Nat) (t : List Char) :
    recordTopicCount (matchTopics slides exam aliases minScore maxMatches).1 t
      ≤ maxMatches * topicEntryCount slides t :=
  mtGo_topic_count aliases _ minScore maxMatches t slides exam

/-- **C2, counterexample.**  The stored `score` field is the combined score
rounded to 3 decimals, and rounding can push it **below** `min_score`: with
topic `"x"`, question `"x y z"` and `min_score = 0.533333`, the combined
score is `8/15 = 0.5333…` (accepted), but the stored rounded score `0.533` is
strictly below `min_score`. -/
theorem matchTopics_minScore_violation :
    ∃ r ∈ (matchTopics [(none, cs ("x"))] [cs ("x y z")] [] (533333/1000000) 1).1,
      r.score < 533333 / 1000000 := by
  with_unfolding_all decide

/-- **C2, amended.**  Every emitted record's combined score **before**
rounding is at least `minScore` (the stored `score` field is that value
rounded to 3 decimals, hence at least `minScore - 1/2000`). -/
theorem matchTopics_minScore_pre_rounding (slides : List (Option Int × List Char))
    (exam : List (List Char)) (aliases : List (List Char × List (List Char)))
    (minScore : ℚ) (maxMatches : Nat) :
    ∀ r ∈ (matchTopics slides exam aliases minScore maxMatches).1,
      (∃ s, minScore ≤ s ∧ r.score = pyRound3 s) ∧ minScore - 1/2000 ≤ r.score := by
  intro r hr
  obtain ⟨s, hle, hsc, -⟩ :=
    mtGo_records_spec aliases _ minScore maxMatches slides exam r hr
  refine ⟨⟨s, hle, hsc⟩, ?_⟩
  have hcl := (pyRound3_close s).1
  rw [hsc]
  linarith

/-- Witness for the amended C2 at a concrete input. -/
theorem matchTopics_minScore_pre_rounding_witness :
    ({ page := some 1, slide_topic := cs ("ab"), exam_question := cs ("ab"),
       score := 1, confidence := cs ("high") } : MatchRecord)
      ∈ (matchTopics [(some 1, cs ("ab"))] [cs ("ab")] [] (1/2) 1).1 ∧
    ((∃ s, (1 : ℚ)/2 ≤ s ∧
        ({ page := some 1, slide_topic := cs ("ab"), exam_question := cs ("ab"),
           score := 1, confidence := cs ("high") } : MatchRecord).score = pyRound3 s) ∧
      (1 : ℚ)/2 - 1/2000 ≤
        ({ page := some 1, slide_topic := cs ("ab"), exam_question := cs ("ab"),
           score := 1, confidence := cs ("high") } : MatchRecord).score) := by
  refine ⟨?_, matchTopics_minScore_pre_rounding [(some 1, cs ("ab"))] [cs ("ab")]
    [] (1/2) 1 _ ?_⟩ <;> with_unfolding_all decide

/-- **C3.**  Unmatched-set complement, counted with multiplicity: for every
question string `q`, the number of copies of `q` left in the
unmatched-questions output plus the number of copies claimed (one removal per
emitted record naming `q`, capped at the number of copies in the exam input)
equals the number of copies in the exam input; in particular a question
string of the exam appears in some record exactly when at least one of its
copies left the unmatched set. -/
theorem matchTopics_unmatched_partition (slides : List (Option Int × List Char))
    (exam : List (List Char)) (aliases : List (List Char × List (List Char)))
    (minScore : ℚ) (maxMatches : Nat) (q : List Char) :
    (matchTopics slides exam aliases minScore maxMatches).2.2.count q
        + min (exam.count q)
            (recordQuestionCount (matchTopics slides exam aliases minScore maxMatches).1 q)
      = exam.count q ∧
    (q ∈ exam →
      (recordQuestionCount (matchTopics slides exam aliases minScore maxMatches).1 q ≠ 0 ↔
        (matchTopics slides exam aliases minScore maxMatches).2.2.count q
          < exam.count q)) := by
  have h := mtGo_ue_count aliases (exam.map fun q => (q, normalize aliases q))
    minScore maxMatches q slides exam
  simp only [matchTopics]
  constructor
  · omega
  · intro hq
    have hpos : 0 < exam.count q := List.count_pos_iff.mpr hq
    omega

/-- Witness for C3 at a concrete input: two copies of one question, a single
topic with `max_matches = 1`; one copy is claimed, one stays unmatched. -/
theorem matchTopics_unmatched_partition_witness :
    ((matchTopics [(none, cs ("ab"))] [cs ("ab"), cs ("ab")] [] 0 1).2.2.count (cs ("ab"))
        + min ([cs ("ab"), cs ("ab")].count (cs ("ab")))
            (recordQuestionCount
              (matchTopics [(none, cs ("ab"))] [cs ("ab"), cs ("ab")] [] 0 1).1 (cs ("ab")))
      = [cs ("ab"), cs ("ab")].count (cs ("ab"))) ∧
    (recordQuestionCount
        (matchTopics [(none, cs ("ab"))] [cs ("ab"), cs ("ab")] [] 0 1).1 (cs ("ab")) ≠ 0 ↔
      (matchTopics [(none, cs ("ab"))] [cs ("ab"), cs ("ab")] [] 0 1).2.2.count (cs ("ab"))
        < [cs ("ab"), cs ("ab")].count (cs ("ab"))) :=
  ⟨(matchTopics_unmatched_partition [(none, cs ("ab"))] [cs ("ab"), cs ("ab")] [] 0 1
      (cs ("ab"))).1,
   (matchTopics_unmatched_partition [(none, cs ("ab"))] [cs ("ab"), cs ("ab")] [] 0 1
      (cs ("ab"))).2 (by decide)⟩

/-- **C9.**  `parse_exam` silently drops every line whose stripped text has
fewer than 4 characters; consequently such a string is never a question of
any emitted MatchRecord and never occurs in the unmatched-questions list. -/
theorem parseExam_discards_short (lines : List (List Char)) (raw : List Char)
    (hshort : (strip raw).length < 4) :
    strip raw ∉ parseExam lines ∧
    ∀ (slides : List (Option Int × List Char))
      (aliases : List (List Char × List (List Char))) (minScore : ℚ) (maxMatches : Nat),
      (∀ r ∈ (matchTopics slides (parseExam lines) aliases minScore maxMatches).1,
        r.exam_question ≠ strip raw) ∧
      strip raw ∉ (matchTopics slides (parseExam lines) aliases minScore maxMatches).2.2 := by
  have hnotin : strip raw ∉ parseExam lines := by
    intro h
    have := parseExam_mem_length h
    omega
  refine ⟨hnotin, ?_⟩
  intro slides aliases ms mm
  constructor
  · intro r hr heq
    obtain ⟨s, -, -, hmem⟩ := mtGo_records_spec aliases _ ms mm slides _ r hr
    have hid : List.map Prod.fst ((parseExam lines).map
        fun q => (q, normalize aliases q)) = parseExam lines := by
      rw [List.map_map]
      have hco : (Prod.fst ∘ fun q : List Char => (q, normalize aliases q)) = id := rfl
      rw [hco, List.map_id]
    rw [hid, heq] at hmem
    exact hnotin hmem
  · intro h
    have hpos := List.count_pos_iff.mpr h
    have hz : (parseExam lines).count (strip raw) = 0 := by
      rcases Nat.eq_zero_or_pos ((parseExam lines).count (strip raw)) with h0 | h0
      · exact h0
      · exact absurd (List.count_pos_iff.mp h0) hnotin
    have hcnt := mtGo_ue_count aliases ((parseExam lines).map
      fun q => (q, normalize aliases q)) ms mm (strip raw) slides (parseExam lines)
    simp only [matchTopics] at hpos
    omega

/-- Witness for C9 at a concrete input. -/
theorem parseExam_discards_short_witness :
    (strip (cs (" ab "))).length < 4 ∧
    strip (cs (" ab ")) ∉ parseExam [cs (" ab "), cs ("what is pca?")] ∧
    strip (cs (" ab "))
      ∉ (matchTopics [] (parseExam [cs (" ab "), cs ("what is pca?")]) [] 0 2).2.2 :=
  ⟨by decide,
   (parseExam_discards_short [cs (" ab "), cs ("what is pca?")] (cs (" ab "))
      (by decide)).1,
   ((parseExam_discards_short [cs (" ab "), cs ("what is pca?")] (cs (" ab "))
      (by decide)).2 [] [] 0 2).2⟩

/-- **C10.**  A line of the form `<page>|` whose topic part strips to the
empty string is omitted by `parse_slides`: it contributes no (page, topic)
pair (removing it leaves the parse unchanged), every parsed topic is
non-empty, and every entry of the unmatched-topics output of `match_topics`
is such a parsed pair, so no empty-titled page ever appears there. -/
theorem parseSlides_empty_topic (l1 l2 : List (List Char)) (raw : List Char)
    (hbar : '|' ∈ strip raw)
    (hpage : ∃ n, pyInt (strip ((strip raw).takeWhile (fun c => c ≠ '|'))) = some n)
    (hempty : strip (((strip raw).dropWhile (fun c => c ≠ '|')).drop 1) = []) :
    parseSlidesLine raw = none ∧
    parseSlides (l1 ++ raw :: l2) = parseSlides (l1 ++ l2) ∧
    (∀ pt ∈ parseSlides (l1 ++ raw :: l2), pt.2 ≠ []) ∧
    ∀ (exam : List (List Char)) (aliases : List (List Char × List (List Char)))
      (minScore : ℚ) (maxMatches : Nat),
      ∀ pt ∈ (matchTopics (parseSlides (l1 ++ raw :: l2)) exam aliases minScore
          maxMatches).2.1,
        pt ∈ parseSlides (l1 ++ raw :: l2) ∧ pt.2 ≠ [] := by
  obtain ⟨n, hn⟩ := hpage
  have hnn : ¬ strip raw = [] := List.ne_nil_of_mem hbar
  have hline : parseSlidesLine raw = none := by
    unfold parseSlidesLine
    rw [if_neg hnn, if_pos hbar, hn]
    dsimp only
    rw [if_pos hempty]
  refine ⟨hline, ?_, ?_, ?_⟩
  · simp [parseSlides, List.filterMap_append, List.filterMap_cons, hline]
  · intro pt hpt
    exact parseSlides_topic_ne hpt
  · intro exam aliases ms mm pt hpt
    simp only [matchTopics] at hpt
    have hmem := mtGo_us_mem aliases (exam.map fun q => (q, normalize aliases q)) ms mm
      (parseSlides (l1 ++ raw :: l2)) exam pt hpt
    exact ⟨hmem, parseSlides_topic_ne hmem⟩

/-- Witness for C10 at a concrete input: the line `"3|"`. -/
theorem parseSlides_empty_topic_witness :
    ('|' ∈ strip (cs ("3|"))) ∧ parseSlidesLine (cs ("3|")) = none ∧
    parseSlides [cs ("1|intro"), cs ("3|")] = parseSlides [cs ("1|intro")] :=
  ⟨by decide,
   (parseSlides_empty_topic [cs ("1|intro")] [] (cs ("3|")) (by decide)
      ⟨3, by decide⟩ (by decide)).1,
   (parseSlides_empty_topic [cs ("1|intro")] [] (cs ("3|")) (by decide)
      ⟨3, by decide⟩ (by decide)).2.1⟩


set_option maxRecDepth 40000

/-- **C5, counterexample.**  For the default pair `(c, s) = ("k-means",
"k means")`, normalising `"... k means ..."` yields `"k means"`: the
canonical term's own hyphen is stripped by the punctuation pass, so the
result does **not** contain `"k-means"`, and it **does** contain the synonym
`"k means"` as standalone tokens. -/
theorem normalize_alias_sub_violation :
    (cs ("k-means"), cs ("k means")) ∈ defaultAliasPairs ∧
    ¬ (splitWS (cs ("k-means")) <:+: splitWS (normalize defaultAliases
          (cs ("... ") ++ cs ("k means") ++ cs (" ..."))) ∧
       ¬ splitWS (cs ("k means")) <:+: splitWS (normalize defaultAliases
          (cs ("... ") ++ cs ("k means") ++ cs (" ...")))) := by
  with_unfolding_all decide

/-- **C5, amended.**  For every canonical/synonym pair `(c, s)` of the
default table, normalising `"... " + s + " ..."` yields a token sequence
containing the *punctuation-stripped* token sequence of `c` consecutively;
and `s` survives as standalone tokens exactly when its punctuation-stripped
token sequence coincides with `c`'s (the pairs `("k-means", "k means")` and
`("k-medoids", "k medoids")`). -/
theorem normalize_alias_sub_canonical :
    ∀ p ∈ defaultAliasPairs,
      splitWS (punctStrip p.1) <:+:
        splitWS (normalize defaultAliases (cs ("... ") ++ p.2 ++ cs (" ..."))) ∧
      (splitWS p.2 <:+:
          splitWS (normalize defaultAliases (cs ("... ") ++ p.2 ++ cs (" ..."))) ↔
        splitWS (punctStrip p.2) = splitWS (punctStrip p.1)) := by
  with_unfolding_all decide

/-- Witness for the amended C5 at the pair `("naive bayes", "nb")`. -/
theorem normalize_alias_sub_canonical_witness :
    (cs ("naive bayes"), cs ("nb")) ∈ defaultAliasPairs ∧
    (splitWS (punctStrip (cs ("naive bayes"))) <:+:
        splitWS (normalize defaultAliases (cs ("... ") ++ cs ("nb") ++ cs (" ..."))) ∧
      (splitWS (cs ("nb")) <:+:
          splitWS (normalize defaultAliases (cs ("... ") ++ cs ("nb") ++ cs (" ..."))) ↔
        splitWS (punctStrip (cs ("nb"))) = splitWS (punctStrip (cs ("naive bayes"))))) :=
  ⟨by decide, normalize_alias_sub_canonical (cs ("naive bayes"), cs ("nb")) (by decide)⟩

/-! ## Shape of `normalize`'s output (for the idempotence claim) -/

theorem joinSpace_single (t : List Char) : joinSpace [t] = t := by
  simp [joinSpace, List.intercalate]

theorem joinSpace_cons2 (t u : List Char) (r : List (List Char)) :
    joinSpace (t :: u :: r) = t ++ ' ' :: joinSpace (u :: r) := by
  simp [joinSpace, List.intercalate, List.intersperse]

theorem isSpaceChar_eq_false_of_az09 {c : Char}
    (h : ('a' ≤ c ∧ c ≤ 'z') ∨ ('0' ≤ c ∧ c ≤ '9')) : isSpaceChar c = false := by
  by_contra hsp
  rw [Bool.not_eq_false] at hsp
  have h6 : c = ' ' ∨ c = '\t' ∨ c = '\n' ∨ c = '\x0d' ∨ c = '\x0b' ∨ c = '\x0c' := by
    simpa [isSpaceChar, or_assoc] using hsp
  rcases h with ⟨h1, h2⟩ | ⟨h1, h2⟩ <;>
    rcases h6 with rfl | rfl | rfl | rfl | rfl | rfl <;>
    exact absurd h1 (by decide)

theorem mem_punctStrip {t : List Char} {c : Char} (h : c ∈ punctStrip t) :
    ('a' ≤ c ∧ c ≤ 'z') ∨ ('0' ≤ c ∧ c ≤ '9') ∨ isSpaceChar c = true := by
  obtain ⟨d, _, heq⟩ := List.mem_map.mp h
  split at heq
  · rename_i hP
    rw [← heq]
    exact hP
  · rw [← heq]
    right; right; rfl

theorem mem_collapseWSGo {t : List Char} {c : Char} :
    ∀ {b : Bool}, c ∈ collapseWSGo b t → c ∈ t ∨ c = ' ' := by
  induction t with
  | nil => intro b h; cases h
  | cons d rest ih =>
    intro b h
    rw [collapseWSGo] at h
    split at h
    · rcases List.mem_append.mp h with h | h
      · right
        split at h
        · cases h
        · simpa using h
      · rcases ih h with h | h
        · exact Or.inl (List.mem_cons_of_mem _ h)
        · exact Or.inr h
    · rcases List.mem_cons.mp h with h | h
      · exact Or.inl (h ▸ List.mem_cons_self _ _)
      · rcases ih h with h | h
        · exact Or.inl (List.mem_cons_of_mem _ h)
        · exact Or.inr h

theorem mem_strip {t : List Char} {c : Char} (h : c ∈ strip t) : c ∈ t := by
  unfold strip at h
  rw [List.mem_reverse] at h
  have h1 := (List.dropWhile_sublist (l := (t.dropWhile isSpaceChar).reverse)
    (p := isSpaceChar)).mem h
  rw [List.mem_reverse] at h1
  exact (List.dropWhile_sublist (l := t) (p := isSpaceChar)).mem h1

theorem splitWSGo_spec (t : List Char) : ∀ (cur : List Char),
    (∀ c ∈ cur, isSpaceChar c = false) →
    ∀ tok ∈ splitWSGo cur t,
      tok ≠ [] ∧ ∀ c ∈ tok, isSpaceChar c = false ∧ (c ∈ cur ∨ c ∈ t) := by
  induction t with
  | nil =>
    intro cur hcur tok h
    rw [splitWSGo] at h
    split at h
    · cases h
    · rename_i hne
      rw [List.mem_singleton] at h
      subst h
      refine ⟨by simpa using hne, fun c hc => ?_⟩
      rw [List.mem_reverse] at hc
      exact ⟨hcur c hc, Or.inl hc⟩
  | cons d rest ih =>
    intro cur hcur tok h
    rw [splitWSGo] at h
    split at h
    · rename_i hd
      rcases List.mem_append.mp h with h | h
      · split at h
        · cases h
        · rename_i hne
          rw [List.mem_singleton] at h
          subst h
          refine ⟨by simpa using hne, fun c hc => ?_⟩
          rw [List.mem_reverse] at hc
          exact ⟨hcur c hc, Or.inl hc⟩
      · obtain ⟨hne, hall⟩ := ih [] (by simp) tok h
        refine ⟨hne, fun c hc => ?_⟩
        obtain ⟨h1, h2⟩ := hall c hc
        rcases h2 with h2 | h2
        · cases h2
        · exact ⟨h1, Or.inr (List.mem_cons_of_mem _ h2)⟩
    · rename_i hd
      have hd' : isSpaceChar d = false := by simpa using hd
      obtain ⟨hne, hall⟩ := ih (d :: cur) (by
        intro c hc
        rcases List.mem_cons.mp hc with rfl | hc
        · exact hd'
        · exact hcur c hc) tok h
      refine ⟨hne, fun c hc => ?_⟩
      obtain ⟨h1, h2⟩ := hall c hc
      rcases h2 with h2 | h2
      · rcases List.mem_cons.mp h2 with rfl | h2
        · exact ⟨h1, Or.inr (List.mem_cons_self _ _)⟩
        · exact ⟨h1, Or.inl h2⟩
      · exact ⟨h1, Or.inr (List.mem_cons_of_mem _ h2)⟩

theorem splitWS_spec {t : List Char} {tok : List Char} (h : tok ∈ splitWS t) :
    tok ≠ [] ∧ ∀ c ∈ tok, isSpaceChar c = false ∧ c ∈ t := by
  obtain ⟨hne, hall⟩ := splitWSGo_spec t [] (by simp) tok h
  refine ⟨hne, fun c hc => ?_⟩
  obtain ⟨h1, h2⟩ := hall c hc
  rcases h2 with h2 | h2
  · cases h2
  · exact ⟨h1, h2⟩

theorem mem_joinSpace {toks : List (List Char)} {c : Char}
    (h : c ∈ joinSpace toks) : c = ' ' ∨ ∃ tok ∈ toks, c ∈ tok := by
  induction toks with
  | nil => cases h
  | cons t rest ih =>
    cases rest with
    | nil =>
      rw [joinSpace_single] at h
      exact Or.inr ⟨t, List.mem_cons_self _ _, h⟩
    | cons u r =>
      rw [joinSpace_cons2] at h
      rcases List.mem_append.mp h with h | h
      · exact Or.inr ⟨t, List.mem_cons_self _ _, h⟩
      · rcases List.mem_cons.mp h with rfl | h
        · exact Or.inl rfl
        · rcases ih h with h | ⟨tok, hm, hc⟩
          · exact Or.inl h
          · exact Or.inr ⟨tok, List.mem_cons_of_mem _ hm, hc⟩

theorem joinSpace_ne_nil {t : List Char} (rest : List (List Char)) (hne : t ≠ []) :
    joinSpace (t :: rest) ≠ [] := by
  cases rest with
  | nil => rw [joinSpace_single]; exact hne
  | cons u r =>
    rw [joinSpace_cons2]
    simp

theorem joinSpace_head? (t : List Char) (rest : List (List Char)) (hne : t ≠ []) :
    (joinSpace (t :: rest)).head? = t.head? := by
  cases rest with
  | nil => rw [joinSpace_single]
  | cons u r =>
    rw [joinSpace_cons2]
    cases t with
    | nil => exact absurd rfl hne
    | cons c cr => rfl

theorem joinSpace_getLast? (t : List Char) (rest : List (List Char))
    (h : ∀ tok ∈ t :: rest, tok ≠ []) :
    ∃ tok ∈ t :: rest, (joinSpace (t :: rest)).getLast? = tok.getLast? := by
  induction rest generalizing t with
  | nil => exact ⟨t, List.mem_cons_self _ _, by rw [joinSpace_single]⟩
  | cons u r ih =>
    obtain ⟨tok, hmem, heq⟩ := ih u (fun x hx => h x (List.mem_cons_of_mem _ hx))
    refine ⟨tok, List.mem_cons_of_mem _ hmem, ?_⟩
    have hune : u ≠ [] := h u (List.mem_cons_of_mem _ (List.mem_cons_self _ _))
    have hne' : joinSpace (u :: r) ≠ [] := joinSpace_ne_nil r hune
    rw [joinSpace_cons2, List.getLast?_append]
    have hcons : (' ' :: joinSpace (u :: r)).getLast? = (joinSpace (u :: r)).getLast? := by
      cases hj : joinSpace (u :: r) with
      | nil => exact absurd hj hne'
      | cons a l => rw [List.getLast?_cons_cons]
    rw [hcons, heq]
    have htokne : tok ≠ [] := h tok (List.mem_cons_of_mem _ hmem)
    obtain ⟨x, hx⟩ := Option.isSome_iff_exists.mp (List.getLast?_isSome.mpr htokne)
    rw [hx]
    rfl

theorem strip_eq_self {t : List Char}
    (h1 : ∀ c, t.head? = some c → isSpaceChar c = false)
    (h2 : ∀ c, t.getLast? = some c → isSpaceChar c = false) : strip t = t := by
  unfold strip
  have hd1 : t.dropWhile isSpaceChar = t := by
    cases t with
    | nil => rfl
    | cons c r => rw [List.dropWhile_cons_of_neg (by simp [h1 c rfl])]
  rw [hd1]
  have hd2 : t.reverse.dropWhile isSpaceChar = t.reverse := by
    cases hr : t.reverse with
    | nil => rfl
    | cons c r =>
      have hlast : t.getLast? = some c := by
        rw [← List.head?_reverse, hr]
        rfl
      rw [List.dropWhile_cons_of_neg (by simp [h2 c hlast])]
  rw [hd2, List.reverse_reverse]

theorem collapseWSGo_true_eq_false {t : List Char}
    (h : ∀ c, t.head? = some c → isSpaceChar c = false) :
    collapseWSGo true t = collapseWSGo false t := by
  cases t with
  | nil => rfl
  | cons c r =>
    rw [collapseWSGo, collapseWSGo, if_neg (by simp [h c rfl]),
      if_neg (by simp [h c rfl])]

theorem collapseWSGo_append_nonspace {t : List Char}
    (h : ∀ c ∈ t, isSpaceChar c = false) (u : List Char) :
    collapseWSGo false (t ++ u) = t ++ collapseWSGo false u := by
  induction t with
  | nil => rfl
  | cons c r ih =>
    rw [List.cons_append, collapseWSGo,
      if_neg (by simp [h c (List.mem_cons_self _ _)])]
    rw [ih (fun d hd => h d (List.mem_cons_of_mem _ hd))]
    rfl

theorem collapseWS_joinSpace (toks : List (List Char))
    (h : ∀ tok ∈ toks, tok ≠ [] ∧ ∀ c ∈ tok, isSpaceChar c = false) :
    collapseWS (joinSpace toks) = joinSpace toks := by
  induction toks with
  | nil => rfl
  | cons t rest ih =>
    cases rest with
    | nil =>
      rw [joinSpace_single]
      unfold collapseWS
      have h0 := collapseWSGo_append_nonspace (h t (List.mem_cons_self _ _)).2 []
      simpa [collapseWSGo] using h0
    | cons u r =>
      rw [joinSpace_cons2]
      unfold collapseWS
      rw [collapseWSGo_append_nonspace (h t (List.mem_cons_self _ _)).2]
      have hjoin : (joinSpace (u :: r)).head? = u.head? :=
        joinSpace_head? u r (h u (List.mem_cons_of_mem _ (List.mem_cons_self _ _))).1
      have hhead : ∀ c, (joinSpace (u :: r)).head? = some c → isSpaceChar c = false := by
        intro c hc
        rw [hjoin] at hc
        exact (h u (List.mem_cons_of_mem _ (List.mem_cons_self _ _))).2 c
          (List.mem_of_mem_head? hc)
      have hrest : collapseWSGo false (joinSpace (u :: r)) = joinSpace (u :: r) :=
        ih (fun tok htok => h tok (List.mem_cons_of_mem _ htok))
      congr 1
      rw [collapseWSGo, if_pos (show isSpaceChar ' ' = true from rfl)]
      rw [collapseWSGo_true_eq_false hhead, hrest]
      rfl

theorem splitWSGo_nonspace_front {tok : List Char}
    (hns : ∀ c ∈ tok, isSpaceChar c = false) :
    ∀ (cur u : List Char), splitWSGo cur (tok ++ u) = splitWSGo (tok.reverse ++ cur) u := by
  induction tok with
  | nil => intro cur u; rfl
  | cons c t ih =>
    intro cur u
    rw [List.cons_append, splitWSGo,
      if_neg (by simp [hns c (List.mem_cons_self _ _)])]
    rw [ih (fun d hd => hns d (List.mem_cons_of_mem _ hd)) (c :: cur) u]
    rw [List.reverse_cons, List.append_assoc]
    rfl

theorem splitWS_joinSpace (toks : List (List Char))
    (h : ∀ tok ∈ toks, tok ≠ [] ∧ ∀ c ∈ tok, isSpaceChar c = false) :
    splitWS (joinSpace toks) = toks := by
  induction toks with
  | nil => rfl
  | cons t rest ih =>
    obtain ⟨hne, hns⟩ := h t (List.mem_cons_self _ _)
    cases rest with
    | nil =>
      rw [joinSpace_single]
      unfold splitWS
      have h0 := splitWSGo_nonspace_front hns [] []
      rw [List.append_nil t] at h0
      rw [h0, List.append_nil]
      rw [splitWSGo, if_neg (by simpa using hne), List.reverse_reverse]
    | cons u r =>
      rw [joinSpace_cons2]
      unfold splitWS
      rw [splitWSGo_nonspace_front hns [] (' ' :: joinSpace (u :: r))]
      rw [List.append_nil]
      rw [splitWSGo, if_pos (show isSpaceChar ' ' = true from rfl)]
      rw [if_neg (by simpa using hne)]
      have ih' : splitWSGo [] (joinSpace (u :: r)) = u :: r :=
        ih (fun tok htok => h tok (List.mem_cons_of_mem _ htok))
      rw [ih', List.reverse_reverse]
      rfl

theorem lowerChar_fix {c : Char}
    (h : ('a' ≤ c ∧ c ≤ 'z') ∨ ('0' ≤ c ∧ c ≤ '9') ∨ isSpaceChar c = true) :
    lowerChar c = c := by
  unfold lowerChar
  rw [if_neg]
  rintro ⟨hA, hZ⟩
  rcases h with ⟨h1, h2⟩ | ⟨h1, h2⟩ | h1
  · exact absurd (le_trans h1 hZ) (by decide)
  · exact absurd (le_trans hA h2) (by decide)
  · have h6 : c = ' ' ∨ c = '\t' ∨ c = '\n' ∨ c = '\x0d' ∨ c = '\x0b' ∨ c = '\x0c' := by
      simpa [isSpaceChar, or_assoc] using h1
    rcases h6 with rfl | rfl | rfl | rfl | rfl | rfl <;> exact absurd hA (by decide)

theorem punctStrip_fix {t : List Char}
    (h : ∀ c ∈ t, ('a' ≤ c ∧ c ≤ 'z') ∨ ('0' ≤ c ∧ c ≤ '9') ∨ isSpaceChar c = true) :
    punctStrip t = t := by
  unfold punctStrip
  induction t with
  | nil => rfl
  | cons c r ih =>
    rw [List.map_cons, if_pos (h c (List.mem_cons_self _ _))]
    rw [ih (fun d hd => h d (List.mem_cons_of_mem _ hd))]

theorem lowerStr_fix {t : List Char}
    (h : ∀ c ∈ t, ('a' ≤ c ∧ c ≤ 'z') ∨ ('0' ≤ c ∧ c ≤ '9') ∨ isSpaceChar c = true) :
    lowerStr t = t := by
  unfold lowerStr
  induction t with
  | nil => rfl
  | cons c r ih =>
    rw [List.map_cons, lowerChar_fix (h c (List.mem_cons_self _ _))]
    rw [ih (fun d hd => h d (List.mem_cons_of_mem _ hd))]

theorem reSub_nil (syn canon : List Char) : reSub syn canon [] = [] := by
  simp [reSub, reSubGo, boundary, wordOpt]

theorem aliasPass_nil (aliases : List (List Char × List (List Char))) :
    aliasPass aliases [] = [] := by
  unfold aliasPass
  have hsyn : ∀ (syns : List (List Char)) (c : List Char),
      syns.foldl (fun t syn => reSub syn c t) [] = [] := by
    intro syns c
    induction syns with
    | nil => rfl
    | cons s r ih2 =>
      rw [List.foldl_cons, reSub_nil]
      exact ih2
  generalize pySortBy _ aliases = l
  induction l with
  | nil => rfl
  | cons p rest ih =>
    rw [List.foldl_cons, hsyn]
    exact ih

theorem normalize_nil (aliases : List (List Char × List (List Char))) :
    normalize aliases [] = [] := by
  unfold normalize
  rw [show strip (lowerStr []) = [] from rfl, aliasPass_nil]
  rfl

/-- Every `normalize` output is a space-joined list of non-empty tokens over
the alphabet `a–z0–9`, already free of stopwords. -/
theorem normalize_shape (aliases : List (List Char × List (List Char)))
    (s : List Char) :
    ∃ toks : List (List Char),
      normalize aliases s = joinSpace toks ∧
      (∀ tok ∈ toks, tok ≠ [] ∧ ∀ c ∈ tok,
        ('a' ≤ c ∧ c ≤ 'z') ∨ ('0' ≤ c ∧ c ≤ '9')) ∧
      toks.filter (fun w => decide (w ∉ STOPWORDS)) = toks := by
  refine ⟨(splitWS (strip (collapseWS (punctStrip
    (aliasPass aliases (strip (lowerStr s))))))).filter
      (fun w => decide (w ∉ STOPWORDS)), rfl, ?_, ?_⟩
  · intro tok htok
    have htok' := List.mem_of_mem_filter htok
    obtain ⟨hne, hall⟩ := splitWS_spec htok'
    refine ⟨hne, fun c hc => ?_⟩
    obtain ⟨hns, hmem⟩ := hall c hc
    have hmem2 := mem_strip hmem
    rcases mem_collapseWSGo hmem2 with hmem3 | hsp
    · rcases mem_punctStrip hmem3 with h | h | h
      · exact Or.inl h
      · exact Or.inr h
      · rw [h] at hns
        cases hns
    · rw [hsp] at hns
      cases hns
  · rw [List.filter_filter]
    apply List.filter_congr
    intro x _
    rw [Bool.and_self]

/-- **C7, counterexample.**  The string `"frequent the pattern"` contains no
whole-word synonym occurrence (the alias pass leaves it unchanged), yet
normalising it once gives `"frequent pattern"` — stopword removal has glued
the synonym `"frequent pattern"` together — and normalising twice gives
`"association rules"`. -/
theorem normalize_idempotence_violation :
    aliasPass defaultAliases (cs ("frequent the pattern")) = cs ("frequent the pattern") ∧
    normalize defaultAliases (normalize defaultAliases (cs ("frequent the pattern")))
      ≠ normalize defaultAliases (cs ("frequent the pattern")) := by
  with_unfolding_all decide

/-- **C7, amended.**  `normalize` is idempotent on `s` whenever the alias
substitution pass leaves `normalize(s)` unchanged — the canonical-form
condition must hold for the *normalized* string (after stopword removal),
not for `s` itself. -/
theorem normalize_idempotent_of_aliasPass_fixed
    (aliases : List (List Char × List (List Char))) (s : List Char)
    (hfix : aliasPass aliases (normalize aliases s) = normalize aliases s) :
    normalize aliases (normalize aliases s) = normalize aliases s := by
  obtain ⟨toks, hjoin, hprops, hfilter⟩ := normalize_shape aliases s
  rcases htk : toks with _ | ⟨t0, rest⟩
  · subst htk
    rw [hjoin]
    exact normalize_nil aliases
  · subst htk
    have hprops' : ∀ tok ∈ t0 :: rest, tok ≠ [] ∧ ∀ c ∈ tok, isSpaceChar c = false := by
      intro tok htok
      obtain ⟨hne, hall⟩ := hprops tok htok
      exact ⟨hne, fun c hc => isSpaceChar_eq_false_of_az09 (hall c hc)⟩
    have hchars : ∀ c ∈ normalize aliases s,
        ('a' ≤ c ∧ c ≤ 'z') ∨ ('0' ≤ c ∧ c ≤ '9') ∨ isSpaceChar c = true := by
      intro c hc
      rw [hjoin] at hc
      rcases mem_joinSpace hc with rfl | ⟨tok, hmem, hcm⟩
      · right; right; rfl
      · rcases (hprops tok hmem).2 c hcm with h | h
        · exact Or.inl h
        · exact Or.inr (Or.inl h)
    have h1 : lowerStr (normalize aliases s) = normalize aliases s :=
      lowerStr_fix hchars
    have hhead : ∀ c, (normalize aliases s).head? = some c → isSpaceChar c = false := by
      intro c hc
      rw [hjoin, joinSpace_head? t0 rest (hprops' t0 (List.mem_cons_self _ _)).1] at hc
      exact (hprops' t0 (List.mem_cons_self _ _)).2 c (List.mem_of_mem_head? hc)
    have hlast : ∀ c, (normalize aliases s).getLast? = some c → isSpaceChar c = false := by
      intro c hc
      obtain ⟨tok, hmem, heq⟩ := joinSpace_getLast? t0 rest
        (fun x hx => (hprops' x hx).1)
      rw [hjoin, heq] at hc
      exact (hprops' tok hmem).2 c (List.mem_of_mem_getLast? hc)
    have h2 : strip (normalize aliases s) = normalize aliases s :=
      strip_eq_self hhead hlast
    have h4 : punctStrip (normalize aliases s) = normalize aliases s :=
      punctStrip_fix hchars
    have h5 : collapseWS (normalize aliases s) = normalize aliases s := by
      rw [hjoin]
      exact collapseWS_joinSpace _ hprops'
    have h7 : splitWS (normalize aliases s) = t0 :: rest := by
      rw [hjoin]
      exact splitWS_joinSpace _ hprops'
    conv_lhs => rw [normalize]
    rw [h1, h2, hfix, h4, h5, h2, h7, hfilter, ← hjoin]

/-- Witness for the amended C7: `"naive bayes"` is already in canonical
form after normalization, and re-normalizing is the identity on it. -/
theorem normalize_idempotent_witness :
    aliasPass defaultAliases (normalize defaultAliases (cs ("naive bayes")))
      = normalize defaultAliases (cs ("naive bayes")) ∧
    normalize defaultAliases (normalize defaultAliases (cs ("naive bayes")))
      = normalize defaultAliases (cs ("naive bayes")) := by
  refine ⟨?_, normalize_idempotent_of_aliasPass_fixed defaultAliases
    (cs ("naive bayes")) ?_⟩ <;> with_unfolding_all decide

/-- **C8.**  Gap-splitting in question segmentation: for two consecutive
lines with no header/bullet/question-mark interference, the buffer is
flushed into a separate item before the second line exactly when the
vertical gap strictly exceeds `max(20.0, 2.2 × first line's glyph size)`
(the nonemptiness/distinctness hypotheses only rule out degenerate texts
that the whitespace-collapsing flush would drop or deduplicate). -/
theorem extractQuestions_gap_split (l1 l2 : QLine)
    (hh1 : headerMatch (lowerStr l1.text) = false)
    (hh2 : headerMatch (lowerStr l2.text) = false)
    (hb1 : bulletMatch l1.text = none)
    (hb2 : bulletMatch l2.text = none)
    (hq1 : ¬ (stripRight l1.text).getLast? = some '?')
    (hq2 : ¬ (stripRight l2.text).getLast? = some '?')
    (hsz : l1.avgSize ≠ 0)
    (hc1 : collapseWS (strip (joinSpace [strip l1.text])) ≠ [])
    (hc2 : collapseWS (strip (joinSpace [strip l2.text])) ≠ [])
    (hcj : collapseWS (strip (joinSpace [strip l1.text, strip l2.text])) ≠ [])
    (hc12 : collapseWS (strip (joinSpace [strip l1.text]))
              ≠ collapseWS (strip (joinSpace [strip l2.text]))) :
    extractQuestions [l1, l2]
      = if max 20 ((22/10) * l1.avgSize) < l1.y1 - l2.y1
        then [collapseWS (strip (joinSpace [strip l1.text])),
              collapseWS (strip (joinSpace [strip l2.text]))]
        else [collapseWS (strip (joinSpace [strip l1.text, strip l2.text]))] := by
  have e1 : qStep ([], [], none, none) l1
      = ([], [l1.text], some l1.y1, some l1.avgSize) := by
    simp [qStep, hh1, hb1, hq1, hsz]
  unfold extractQuestions
  rw [List.foldl_cons, e1, List.foldl_cons, List.foldl_nil]
  by_cases hgap : max 20 ((22/10) * l1.avgSize) < l1.y1 - l2.y1
  · rw [if_pos hgap]
    have e2 : qStep ([], [l1.text], some l1.y1, some l1.avgSize) l2
        = ([collapseWS (strip (joinSpace [strip l1.text]))], [l2.text],
           some l2.y1,
           if l2.avgSize ≠ 0 then some l2.avgSize else some l1.avgSize) := by
      simp only [qStep, hh2, hb2, Bool.false_eq_true, if_false]
      simp only [hgap, if_pos]
      simp [flushItems, hc1, hq2]
    rw [e2]
    simp only [flushItems]
    rw [if_neg (by simp)]
    simp only [List.map_cons, List.map_nil]
    rw [if_neg hc2]
    simp only [dedupGo]
    rw [if_neg (by simp), if_neg (by simpa using fun h => hc12 h.symm)]
  · rw [if_neg hgap]
    have e2 : qStep ([], [l1.text], some l1.y1, some l1.avgSize) l2
        = ([], [l1.text, l2.text], some l2.y1,
           if l2.avgSize ≠ 0 then some l2.avgSize else some l1.avgSize) := by
      simp only [qStep, hh2, hb2, Bool.false_eq_true, if_false]
      simp only [hgap, if_neg]
      simp [hq2]
    rw [e2]
    simp only [flushItems]
    rw [if_neg (by simp)]
    simp only [List.map_cons, List.map_nil]
    rw [if_neg hcj]
    simp only [dedupGo]
    rw [if_neg (by simp)]

/-- Witness for C8: the spec's own example — vertical gap 50, previous glyph
size 10, threshold `max(20, 22) = 22 < 50` — splits into two items. -/
theorem extractQuestions_gap_split_witness :
    extractQuestions
        [{ page := 1, text := cs ("Alpha beta"), x0 := 0, y0 := 95, x1 := 100,
           y1 := 100, avgSize := 10 },
         { page := 1, text := cs ("Gamma delta"), x0 := 0, y0 := 45, x1 := 100,
           y1 := 50, avgSize := 10 }]
      = if max 20 ((22/10) * (10 : ℚ)) < (100 : ℚ) - 50
        then [collapseWS (strip (joinSpace [strip (cs ("Alpha beta"))])),
              collapseWS (strip (joinSpace [strip (cs ("Gamma delta"))]))]
        else [collapseWS (strip (joinSpace
               [strip (cs ("Alpha beta")), strip (cs ("Gamma delta"))]))] := by
  have h := extractQuestions_gap_split
    { page := 1, text := cs ("Alpha beta"), x0 := 0, y0 := 95, x1 := 100,
      y1 := 100, avgSize := 10 }
    { page := 1, text := cs ("Gamma delta"), x0 := 0, y0 := 45, x1 := 100,
      y1 := 50, avgSize := 10 }
    (by with_unfolding_all decide) (by with_unfolding_all decide)
    (by with_unfolding_all decide) (by with_unfolding_all decide)
    (by with_unfolding_all decide) (by with_unfolding_all decide)
    (by with_unfolding_all decide) (by with_unfolding_all decide)
    (by with_unfolding_all decide) (by with_unfolding_all decide)
    (by with_unfolding_all decide)
  exact h

/-! ## Order properties of the stable sort and the merge loop -/

theorem pairwise_pyInsertBy {α : Type _} {before : α → α → Bool}
    (hasymm : ∀ x y, before x y = true → before y x = false)
    (htrans : ∀ x y z, before x y = true → before z y = false → before z x = false)
    {x : α} {l : List α} (h : l.Pairwise (fun a b => before b a = false)) :
    (pyInsertBy before x l).Pairwise (fun a b => before b a = false) := by
  induction l with
  | nil => simp [pyInsertBy]
  | cons y ys ih =>
    rw [pyInsertBy]
    rcases List.pairwise_cons.mp h with ⟨hy, hys⟩
    split
    · rename_i hxy
      refine List.pairwise_cons.mpr ⟨?_, h⟩
      intro z hz
      rcases List.mem_cons.mp hz with rfl | hz
      · exact hasymm _ _ hxy
      · exact htrans x y z hxy (hy z hz)
    · refine List.pairwise_cons.mpr ⟨?_, ih hys⟩
      rename_i hxy
      intro z hz
      rcases (mem_pyInsertBy).mp hz with rfl | hz
      · simpa using hxy
      · exact hy z hz

theorem pairwise_pySortBy {α : Type _} {before : α → α → Bool}
    (hasymm : ∀ x y, before x y = true → before y x = false)
    (htrans : ∀ x y z, before x y = true → before z y = false → before z x = false)
    (l : List α) : (pySortBy before l).Pairwise (fun a b => before b a = false) := by
  rw [pySortBy]
  have hgen : ∀ (l : List α) (acc : List α),
      acc.Pairwise (fun a b => before b a = false) →
      (l.foldl (fun acc x => pyInsertBy before x acc) acc).Pairwise
        (fun a b => before b a = false) := by
    intro l
    induction l with
    | nil => intro acc h; exact h
    | cons x xs ih =>
      intro acc h
      rw [List.foldl_cons]
      exact ih _ (pairwise_pyInsertBy hasymm htrans h)
  exact hgen l [] (List.Pairwise.nil)

theorem mergeLoop_spec (mt : ℚ) (title : LineInfo) (l : List LineInfo) :
    (mergeLoop mt title l = title.text ∧ ∀ ln ∈ l, mergeOk mt title ln = false) ∨
    (∃ l1 c l2, l = l1 ++ c :: l2 ∧ mergeOk mt title c = true ∧
      (∀ ln ∈ l1, mergeOk mt title ln = false) ∧
      mergeLoop mt title l = strip (title.text ++ ' ' :: c.text)) := by
  induction l with
  | nil => exact Or.inl ⟨rfl, by simp⟩
  | cons ln rest ih =>
    rw [mergeLoop]
    by_cases hok : mergeOk mt title ln = true
    · rw [if_pos hok]
      exact Or.inr ⟨[], ln, rest, rfl, hok, by simp, rfl⟩
    · rw [if_neg hok]
      rcases ih with ⟨heq, hall⟩ | ⟨l1, c, l2, heq, hc, hfail, hres⟩
      · refine Or.inl ⟨heq, fun x hx => ?_⟩
        rcases List.mem_cons.mp hx with rfl | hx
        · simpa using hok
        · exact hall x hx
      · refine Or.inr ⟨ln :: l1, c, l2, by rw [heq]; rfl, hc, ?_, hres⟩
        intro x hx
        rcases List.mem_cons.mp hx with rfl | hx
        · simpa using hok
        · exact hfail x hx

/-- **C6, counterexample.**  On `c6Raws` (page height 200, top ratio 0.35,
merge threshold 0.9) the vertically closest line below the selected title is
the small-font line `"a"`, which fails the size-similarity condition — yet
the farther line `"b"` is merged: the loop does not stop at the closest
candidate but walks on to the first candidate satisfying all conditions. -/
theorem pageTitle_merge_violation :
    pageTitle c6Raws (some 200) (35/100) (9/10) = cs ("Big b") ∧
    (belowSorted (pageHeightVal (some 200)) (35/100) (buildLines c6Raws)).head?
      = some { text := cs ("a"), x0 := 0, y0 := 90, x1 := 100, y1 := 95, avgSize := 5 } ∧
    mergeOk (9/10) (titleOf (pageHeightVal (some 200)) (35/100) (buildLines c6Raws))
      { text := cs ("a"), x0 := 0, y0 := 90, x1 := 100, y1 := 95, avgSize := 5 }
      = false := by
  with_unfolding_all decide

/-- **C6, amended.**  After the title is selected, the merged continuation
(if any) is the *first* line, in order of vertical proximity of its top edge
to the title's bottom edge among the lines strictly below the title, that
satisfies all three conditions (size-similarity ≥ mergeThreshold, vertical
gap ≤ glyph size × 1.6, left-edge alignment within max(10, glyph size ×
0.8)); every strictly closer line below fails at least one condition, and at
most one continuation line is ever merged. -/
theorem pageTitle_merge_first_passing (raws : List RawLine) (ph : Option ℚ)
    (tr mt : ℚ) (hne : buildLines raws ≠ []) :
    (pageTitle raws ph tr mt = (titleOf (pageHeightVal ph) tr (buildLines raws)).text ∧
       ∀ ln ∈ belowSorted (pageHeightVal ph) tr (buildLines raws),
         mergeOk mt (titleOf (pageHeightVal ph) tr (buildLines raws)) ln = false) ∨
    (∃ c ∈ belowSorted (pageHeightVal ph) tr (buildLines raws),
       mergeOk mt (titleOf (pageHeightVal ph) tr (buildLines raws)) c = true ∧
       pageTitle raws ph tr mt
         = strip ((titleOf (pageHeightVal ph) tr (buildLines raws)).text ++ ' ' :: c.text) ∧
       ∀ ln ∈ belowSorted (pageHeightVal ph) tr (buildLines raws),
         |ln.y1 - (titleOf (pageHeightVal ph) tr (buildLines raws)).y0| <
             |c.y1 - (titleOf (pageHeightVal ph) tr (buildLines raws)).y0| →
           mergeOk mt (titleOf (pageHeightVal ph) tr (buildLines raws)) ln = false) := by
  have hpt : pageTitle raws ph tr mt
      = mergeLoop mt (titleOf (pageHeightVal ph) tr (buildLines raws))
          (belowSorted (pageHeightVal ph) tr (buildLines raws)) := by
    unfold pageTitle
    rw [if_neg hne]
  have hpw : (belowSorted (pageHeightVal ph) tr (buildLines raws)).Pairwise
      (fun a b => (decide (|b.y1 - (titleOf (pageHeightVal ph) tr (buildLines raws)).y0| <
        |a.y1 - (titleOf (pageHeightVal ph) tr (buildLines raws)).y0|)) = false) := by
    apply pairwise_pySortBy
    · intro x y h
      simp only [decide_eq_true_eq] at h
      simp only [decide_eq_false_iff_not]
      linarith
    · intro x y z h1 h2
      simp only [decide_eq_true_eq] at h1
      simp only [decide_eq_false_iff_not] at h2 ⊢
      intro h3
      exact h2 (lt_trans h3 h1)
  rcases mergeLoop_spec mt (titleOf (pageHeightVal ph) tr (buildLines raws))
      (belowSorted (pageHeightVal ph) tr (buildLines raws))
    with ⟨heq, hall⟩ | ⟨l1, c, l2, heq, hc, hfail, hres⟩
  · exact Or.inl ⟨by rw [hpt, heq], hall⟩
  · refine Or.inr ⟨c, by rw [heq]; exact List.mem_append_right _ (List.mem_cons_self _ _),
      hc, by rw [hpt, hres], ?_⟩
    intro ln hln hlt
    rw [heq] at hln
    rcases List.mem_append.mp hln with hln | hln
    · exact hfail ln hln
    · rcases List.mem_cons.mp hln with rfl | hln
      · exact absurd hlt (lt_irrefl _)
      · exfalso
        rw [heq] at hpw
        have h2 := (List.pairwise_cons.mp (List.pairwise_append.mp hpw).2.1).1 ln hln
        simp only [decide_eq_false_iff_not] at h2
        exact h2 hlt

/-- Witness for the amended C6 on `c6Raws`: the merge loop skips the failing
closest candidate and merges the farther matching one. -/
theorem pageTitle_merge_first_passing_witness :
    buildLines c6Raws ≠ [] ∧
    ((pageTitle c6Raws (some 200) (35/100) (9/10)
        = (titleOf (pageHeightVal (some 200)) (35/100) (buildLines c6Raws)).text ∧
       ∀ ln ∈ belowSorted (pageHeightVal (some 200)) (35/100) (buildLines c6Raws),
         mergeOk (9/10) (titleOf (pageHeightVal (some 200)) (35/100)
           (buildLines c6Raws)) ln = false) ∨
     (∃ c ∈ belowSorted (pageHeightVal (some 200)) (35/100) (buildLines c6Raws),
       mergeOk (9/10) (titleOf (pageHeightVal (some 200)) (35/100)
         (buildLines c6Raws)) c = true ∧
       pageTitle c6Raws (some 200) (35/100) (9/10)
         = strip ((titleOf (pageHeightVal (some 200)) (35/100)
             (buildLines c6Raws)).text ++ ' ' :: c.text) ∧
       ∀ ln ∈ belowSorted (pageHeightVal (some 200)) (35/100) (buildLines c6Raws),
         |ln.y1 - (titleOf (pageHeightVal (some 200)) (35/100)
             (buildLines c6Raws)).y0| <
             |c.y1 - (titleOf (pageHeightVal (some 200)) (35/100)
               (buildLines c6Raws)).y0| →
           mergeOk (9/10) (titleOf (pageHeightVal (some 200)) (35/100)
             (buildLines c6Raws)) ln = false)) :=
  ⟨by decide, pageTitle_merge_first_passing c6Raws (some 200) (35/100) (9/10)
    (by decide)⟩

/-! ## C4, part 1: the similarity scores stay in the unit interval

The only non-trivial component is `char_similarity`: `ratio` is
`2*M/(len(a)+len(b))` where `M` is the total size of the matching blocks, so
the blocks found by `find_longest_match` must fit inside the window
`[alo, ahi) × [blo, bhi)` handed to it, and the recursion of
`get_matching_blocks` must keep the windows disjoint. -/

theorem alookup_le {m : List (Nat × Nat)} {f : Nat → Nat}
    (h : ∀ p ∈ m, p.2 ≤ f p.1) (j : Nat) : alookup m j ≤ f j := by
  unfold alookup
  cases hf : m.find? (fun p => p.1 == j) with
  | none => exact Nat.zero_le _
  | some p =>
    have hm := List.mem_of_find?_eq_some hf
    have hp : p.1 = j := by simpa using List.find?_some hf
    have hb := h p hm
    rw [hp] at hb
    exact hb

theorem alookup_cons (j k : Nat) (m : List (Nat × Nat)) (t : Nat) :
    alookup ((j, k) :: m) t = if t = j then k else alookup m t := by
  by_cases h : t = j
  · subst h
    rw [if_pos rfl]
    unfold alookup
    rw [List.find?_cons_of_pos _ (by simp)]
  · rw [if_neg h]
    unfold alookup
    rw [List.find?_cons_of_neg _ (by simp [Ne.symm h])]

theorem flmRow_nil (prev : List (Nat × Nat)) (blo bhi i : Nat)
    (acc : List (Nat × Nat)) (best : Nat × Nat × Nat) :
    flmRow prev blo bhi i [] acc best = (acc, best) := rfl

theorem flmRow_cons_skip (prev : List (Nat × Nat)) (blo bhi i j : Nat)
    (js : List Nat) (acc : List (Nat × Nat)) (best : Nat × Nat × Nat)
    (h1 : j < blo) :
    flmRow prev blo bhi i (j :: js) acc best =
      flmRow prev blo bhi i js acc best := by
  simp only [flmRow]
  rw [if_pos h1]

theorem flmRow_cons_stop (prev : List (Nat × Nat)) (blo bhi i j : Nat)
    (js : List Nat) (acc : List (Nat × Nat)) (best : Nat × Nat × Nat)
    (h1 : ¬ j < blo) (h2 : bhi ≤ j) :
    flmRow prev blo bhi i (j :: js) acc best = (acc, best) := by
  simp only [flmRow]
  rw [if_neg h1, if_pos h2]

theorem flmRow_cons_push (prev : List (Nat × Nat)) (blo bhi i j : Nat)
    (js : List Nat) (acc : List (Nat × Nat)) (best : Nat × Nat × Nat)
    (h1 : ¬ j < blo) (h2 : ¬ bhi ≤ j) :
    flmRow prev blo bhi i (j :: js) acc best =
      flmRow prev blo bhi i js
        ((j, (if j = 0 then 0 else alookup prev (j - 1)) + 1) :: acc)
        (if best.2.2 < (if j = 0 then 0 else alookup prev (j - 1)) + 1 then
          (i + 1 - ((if j = 0 then 0 else alookup prev (j - 1)) + 1),
           j + 1 - ((if j = 0 then 0 else alookup prev (j - 1)) + 1),
           (if j = 0 then 0 else alookup prev (j - 1)) + 1)
         else best) := by
  simp only [flmRow]
  rw [if_neg h1, if_neg h2]

theorem flmRow_append (prev : List (Nat × Nat)) (blo bhi i : Nat) :
    ∀ (l1 : List Nat), (∀ j ∈ l1, j < bhi) → ∀ (l2 : List Nat)
      (acc : List (Nat × Nat)) (best : Nat × Nat × Nat),
      flmRow prev blo bhi i (l1 ++ l2) acc best =
        flmRow prev blo bhi i l2 (flmRow prev blo bhi i l1 acc best).1
          (flmRow prev blo bhi i l1 acc best).2 := by
  intro l1
  induction l1 with
  | nil => intro _ l2 acc best; rfl
  | cons j js ih =>
    intro h l2 acc best
    have hj : j < bhi := h j (List.mem_cons_self _ _)
    have hrest : ∀ x ∈ js, x < bhi := fun x hx => h x (List.mem_cons_of_mem _ hx)
    by_cases h1 : j < blo
    · rw [List.cons_append, flmRow_cons_skip prev blo bhi i j (js ++ l2) acc best h1,
        flmRow_cons_skip prev blo bhi i j js acc best h1, ih hrest l2 acc best]
    · rw [List.cons_append, flmRow_cons_push prev blo bhi i j (js ++ l2) acc best h1 (by omega),
        flmRow_cons_push prev blo bhi i j js acc best h1 (by omega), ih hrest l2 _ _]

theorem flmRow_no_update (prev : List (Nat × Nat)) (blo bhi i : Nat) :
    ∀ (js : List Nat) (acc : List (Nat × Nat)) (best : Nat × Nat × Nat),
      (∀ j ∈ js, ¬ j < blo → j < bhi →
        (if j = 0 then 0 else alookup prev (j - 1)) + 1 ≤ best.2.2) →
      (flmRow prev blo bhi i js acc best).2 = best := by
  intro js
  induction js with
  | nil => intro acc best _; rfl
  | cons j js ih =>
    intro acc best h
    by_cases h1 : j < blo
    · rw [flmRow_cons_skip prev blo bhi i j js acc best h1]
      exact ih acc best (fun x hx => h x (List.mem_cons_of_mem _ hx))
    · by_cases h2 : bhi ≤ j
      · rw [flmRow_cons_stop prev blo bhi i j js acc best h1 h2]
      · rw [flmRow_cons_push prev blo bhi i j js acc best h1 h2]
        have hk := h j (List.mem_cons_self _ _) h1 (by omega)
        rw [if_neg (show ¬ best.2.2 <
          (if j = 0 then 0 else alookup prev (j - 1)) + 1 by omega)]
        exact ih _ best (fun x hx => h x (List.mem_cons_of_mem _ hx))

theorem flmRow_acc (prev : List (Nat × Nat)) (blo bhi i : Nat) :
    ∀ (js : List Nat) (acc : List (Nat × Nat)) (best : Nat × Nat × Nat),
      ∀ p ∈ (flmRow prev blo bhi i js acc best).1,
        p ∈ acc ∨ (p.1 ∈ js ∧ ¬ p.1 < blo ∧ p.1 < bhi ∧
          p.2 = (if p.1 = 0 then 0 else alookup prev (p.1 - 1)) + 1) := by
  intro js
  induction js with
  | nil => intro acc best p hp; exact Or.inl hp
  | cons j js ih =>
    intro acc best p hp
    by_cases h1 : j < blo
    · rw [flmRow_cons_skip prev blo bhi i j js acc best h1] at hp
      rcases ih acc best p hp with h | ⟨hm, hr⟩
      · exact Or.inl h
      · exact Or.inr ⟨List.mem_cons_of_mem _ hm, hr⟩
    · by_cases h2 : bhi ≤ j
      · rw [flmRow_cons_stop prev blo bhi i j js acc best h1 h2] at hp
        exact Or.inl hp
      · rw [flmRow_cons_push prev blo bhi i j js acc best h1 h2] at hp
        rcases ih _ _ p hp with h | ⟨hm, hr⟩
        · rcases List.mem_cons.mp h with rfl | h
          · exact Or.inr ⟨List.mem_cons_self _ _, h1, by omega, rfl⟩
          · exact Or.inl h
        · exact Or.inr ⟨List.mem_cons_of_mem _ hm, hr⟩

theorem flmRow_alookup_skip (prev : List (Nat × Nat)) (blo bhi i : Nat) :
    ∀ (js : List Nat) (acc : List (Nat × Nat)) (best : Nat × Nat × Nat)
      (t : Nat), t ∉ js →
      alookup (flmRow prev blo bhi i js acc best).1 t = alookup acc t := by
  intro js
  induction js with
  | nil => intro acc best t _; rfl
  | cons j js ih =>
    intro acc best t ht
    have htj : t ≠ j := fun h => ht (h ▸ List.mem_cons_self _ _)
    have htr : t ∉ js := fun h => ht (List.mem_cons_of_mem _ h)
    by_cases h1 : j < blo
    · rw [flmRow_cons_skip prev blo bhi i j js acc best h1]
      exact ih acc best t htr
    · by_cases h2 : bhi ≤ j
      · rw [flmRow_cons_stop prev blo bhi i j js acc best h1 h2]
      · rw [flmRow_cons_push prev blo bhi i j js acc best h1 h2, ih _ _ t htr,
          alookup_cons, if_neg htj]

theorem flmRow_wb (prev : List (Nat × Nat)) (blo bhi i alo ahi : Nat)
    (hprev : ∀ p ∈ prev, p.2 + blo ≤ p.1 + 1 ∧ p.2 + alo ≤ i)
    (hi1 : alo ≤ i) (hi2 : i < ahi) :
    ∀ (js : List Nat) (acc : List (Nat × Nat)) (best : Nat × Nat × Nat),
      (∀ p ∈ acc, p.2 + blo ≤ p.1 + 1 ∧ p.2 + alo ≤ i + 1) →
      alo ≤ best.1 → blo ≤ best.2.1 → best.1 + best.2.2 ≤ ahi →
      best.2.1 + best.2.2 ≤ bhi →
      (∀ p ∈ (flmRow prev blo bhi i js acc best).1,
        p.2 + blo ≤ p.1 + 1 ∧ p.2 + alo ≤ i + 1) ∧
      alo ≤ (flmRow prev blo bhi i js acc best).2.1 ∧
      blo ≤ (flmRow prev blo bhi i js acc best).2.2.1 ∧
      (flmRow prev blo bhi i js acc best).2.1 +
        (flmRow prev blo bhi i js acc best).2.2.2 ≤ ahi ∧
      (flmRow prev blo bhi i js acc best).2.2.1 +
        (flmRow prev blo bhi i js acc best).2.2.2 ≤ bhi := by
  intro js
  induction js with
  | nil => intro acc best hacc h1 h2 h3 h4; exact ⟨hacc, h1, h2, h3, h4⟩
  | cons j js ih =>
    intro acc best hacc h1 h2 h3 h4
    by_cases hb1 : j < blo
    · rw [flmRow_cons_skip prev blo bhi i j js acc best hb1]
      exact ih acc best hacc h1 h2 h3 h4
    · by_cases hb2 : bhi ≤ j
      · rw [flmRow_cons_stop prev blo bhi i j js acc best hb1 hb2]
        exact ⟨hacc, h1, h2, h3, h4⟩
      · rw [flmRow_cons_push prev blo bhi i j js acc best hb1 hb2]
        set k := (if j = 0 then 0 else alookup prev (j - 1)) + 1 with hkdef
        have hkb : k + blo ≤ j + 1 := by
          by_cases hj0 : j = 0
          · rw [hkdef, if_pos hj0]
            omega
          · rw [hkdef, if_neg hj0]
            have hal : alookup prev (j - 1) ≤ j - 1 + 1 - blo :=
              alookup_le (f := fun t => t + 1 - blo)
                (fun p hp => by
                  show p.2 ≤ p.1 + 1 - blo
                  have := (hprev p hp).1
                  omega) (j - 1)
            omega
        have hka : k + alo ≤ i + 1 := by
          by_cases hj0 : j = 0
          · rw [hkdef, if_pos hj0]
            omega
          · rw [hkdef, if_neg hj0]
            have hal : alookup prev (j - 1) ≤ i - alo :=
              alookup_le (f := fun _ => i - alo)
                (fun p hp => by
                  show p.2 ≤ i - alo
                  have := (hprev p hp).2
                  omega) (j - 1)
            omega
        have haccn : ∀ p ∈ (j, k) :: acc,
            p.2 + blo ≤ p.1 + 1 ∧ p.2 + alo ≤ i + 1 := by
          intro p hp
          rcases List.mem_cons.mp hp with rfl | hp
          · exact ⟨hkb, hka⟩
          · exact hacc p hp
        by_cases hup : best.2.2 < k
        · rw [if_pos hup]
          refine ih _ (i + 1 - k, j + 1 - k, k) haccn ?_ ?_ ?_ ?_
          · show alo ≤ i + 1 - k
            omega
          · show blo ≤ j + 1 - k
            omega
          · show i + 1 - k + k ≤ ahi
            omega
          · show j + 1 - k + k ≤ bhi
            omega
        · rw [if_neg hup]
          exact ih _ best haccn h1 h2 h3 h4

theorem flmRows_wb (a b : List Char) (alo ahi blo bhi : Nat) :
    ∀ (m i0 : Nat) (prev : List (Nat × Nat)) (best : Nat × Nat × Nat),
      alo ≤ i0 → i0 + m = ahi →
      (∀ p ∈ prev, p.2 + blo ≤ p.1 + 1 ∧ p.2 + alo ≤ i0) →
      alo ≤ best.1 → blo ≤ best.2.1 → best.1 + best.2.2 ≤ ahi →
      best.2.1 + best.2.2 ≤ bhi →
      alo ≤ (flmRows a b blo bhi (List.range' i0 m) prev best).1 ∧
      blo ≤ (flmRows a b blo bhi (List.range' i0 m) prev best).2.1 ∧
      (flmRows a b blo bhi (List.range' i0 m) prev best).1 +
        (flmRows a b blo bhi (List.range' i0 m) prev best).2.2 ≤ ahi ∧
      (flmRows a b blo bhi (List.range' i0 m) prev best).2.1 +
        (flmRows a b blo bhi (List.range' i0 m) prev best).2.2 ≤ bhi := by
  intro m
  induction m with
  | zero =>
    intro i0 prev best _ _ _ hb1 hb2 hb3 hb4
    exact ⟨hb1, hb2, hb3, hb4⟩
  | succ m ih =>
    intro i0 prev best h0 h1 hprev hb1 hb2 hb3 hb4
    have hstep := flmRow_wb prev blo bhi i0 alo ahi hprev h0 (by omega)
      (seqB2j b (a.getD i0 ' ')) [] best (by intro p hp; cases hp)
      hb1 hb2 hb3 hb4
    rw [show List.range' i0 (m + 1) = i0 :: List.range' (i0 + 1) m from rfl]
    simp only [flmRows]
    exact ih (i0 + 1) _ _ (by omega) (by omega)
      (fun p hp => (hstep.1 p hp)) hstep.2.1 hstep.2.2.1
      hstep.2.2.2.1 hstep.2.2.2.2

theorem extendLo_wb (a b : List Char) (alo blo : Nat) (sense : Bool)
    (ahi bhi : Nat) :
    ∀ (fuel : Nat) (best : Nat × Nat × Nat),
      alo ≤ best.1 → blo ≤ best.2.1 → best.1 + best.2.2 ≤ ahi →
      best.2.1 + best.2.2 ≤ bhi →
      alo ≤ (extendLo a b alo blo sense fuel best).1 ∧
      blo ≤ (extendLo a b alo blo sense fuel best).2.1 ∧
      (extendLo a b alo blo sense fuel best).1 +
        (extendLo a b alo blo sense fuel best).2.2 ≤ ahi ∧
      (extendLo a b alo blo sense fuel best).2.1 +
        (extendLo a b alo blo sense fuel best).2.2 ≤ bhi := by
  intro fuel
  induction fuel with
  | zero => intro best h1 h2 h3 h4; exact ⟨h1, h2, h3, h4⟩
  | succ fuel ih =>
    intro best h1 h2 h3 h4
    obtain ⟨bi, bj, k⟩ := best
    dsimp only at h1 h2 h3 h4
    simp only [extendLo]
    split
    · rename_i hc
      exact ih (bi - 1, bj - 1, k + 1) (by dsimp only; omega) (by dsimp only; omega)
        (by dsimp only; omega) (by dsimp only; omega)
    · exact ⟨h1, h2, h3, h4⟩

theorem extendHi_wb (a b : List Char) (ahi bhi : Nat) (sense : Bool)
    (alo blo : Nat) :
    ∀ (fuel : Nat) (best : Nat × Nat × Nat),
      alo ≤ best.1 → blo ≤ best.2.1 → best.1 + best.2.2 ≤ ahi →
      best.2.1 + best.2.2 ≤ bhi →
      alo ≤ (extendHi a b ahi bhi sense fuel best).1 ∧
      blo ≤ (extendHi a b ahi bhi sense fuel best).2.1 ∧
      (extendHi a b ahi bhi sense fuel best).1 +
        (extendHi a b ahi bhi sense fuel best).2.2 ≤ ahi ∧
      (extendHi a b ahi bhi sense fuel best).2.1 +
        (extendHi a b ahi bhi sense fuel best).2.2 ≤ bhi := by
  intro fuel
  induction fuel with
  | zero => intro best h1 h2 h3 h4; exact ⟨h1, h2, h3, h4⟩
  | succ fuel ih =>
    intro best h1 h2 h3 h4
    obtain ⟨bi, bj, k⟩ := best
    dsimp only at h1 h2 h3 h4
    simp only [extendHi]
    split
    · rename_i hc
      exact ih (bi, bj, k + 1) (by dsimp only; omega) (by dsimp only; omega)
        (by dsimp only; omega) (by dsimp only; omega)
    · exact ⟨h1, h2, h3, h4⟩

theorem flm_wb (a b : List Char) (alo ahi blo bhi : Nat)
    (ha : alo ≤ ahi) (hb : blo ≤ bhi) :
    alo ≤ (flm a b alo ahi blo bhi).1 ∧
    blo ≤ (flm a b alo ahi blo bhi).2.1 ∧
    (flm a b alo ahi blo bhi).1 + (flm a b alo ahi blo bhi).2.2 ≤ ahi ∧
    (flm a b alo ahi blo bhi).2.1 + (flm a b alo ahi blo bhi).2.2 ≤ bhi := by
  simp only [flm]
  set R := flmRows a b blo bhi (List.range' alo (ahi - alo)) [] (alo, blo, 0) with hR
  set B1 := extendLo a b alo blo false R.1 R with hB1
  set B2 := extendHi a b ahi bhi false ahi B1 with hB2
  set B3 := extendLo a b alo blo true B2.1 B2 with hB3
  have h0 := flmRows_wb a b alo ahi blo bhi (ahi - alo) alo [] (alo, blo, 0)
    (le_refl _) (by omega) (by intro p hp; cases hp) (le_refl _) (le_refl _)
    (by dsimp only; omega) (by dsimp only; omega)
  rw [← hR] at h0
  obtain ⟨g1, g2, g3, g4⟩ := h0
  obtain ⟨g1, g2, g3, g4⟩ := extendLo_wb a b alo blo false ahi bhi R.1 R g1 g2 g3 g4
  rw [← hB1] at g1 g2 g3 g4
  obtain ⟨g1, g2, g3, g4⟩ := extendHi_wb a b ahi bhi false alo blo ahi B1 g1 g2 g3 g4
  rw [← hB2] at g1 g2 g3 g4
  obtain ⟨g1, g2, g3, g4⟩ := extendLo_wb a b alo blo true ahi bhi B2.1 B2 g1 g2 g3 g4
  rw [← hB3] at g1 g2 g3 g4
  exact extendHi_wb a b ahi bhi true alo blo ahi B3 g1 g2 g3 g4

theorem mblocks_sum_le (a b : List Char) :
    ∀ (fuel alo ahi blo bhi : Nat), alo ≤ ahi → blo ≤ bhi →
      ((mblocks a b fuel alo ahi blo bhi).map (fun m => m.2.2)).sum + alo ≤ ahi ∧
      ((mblocks a b fuel alo ahi blo bhi).map (fun m => m.2.2)).sum + blo ≤ bhi := by
  intro fuel
  induction fuel with
  | zero =>
    intro alo ahi blo bhi h1 h2
    simp only [mblocks, List.map_nil, List.sum_nil]
    omega
  | succ fuel ih =>
    intro alo ahi blo bhi h1 h2
    obtain ⟨hw1, hw2, hw3, hw4⟩ := flm_wb a b alo ahi blo bhi h1 h2
    simp only [mblocks]
    split
    · simp only [List.map_nil, List.sum_nil]
      omega
    · rw [List.map_append, List.sum_append, List.map_cons, List.sum_cons]
      have hL :
          (((if alo < (flm a b alo ahi blo bhi).1 ∧ blo < (flm a b alo ahi blo bhi).2.1
              then mblocks a b fuel alo (flm a b alo ahi blo bhi).1
                blo (flm a b alo ahi blo bhi).2.1
              else []).map (fun m => m.2.2)).sum + alo
            ≤ (flm a b alo ahi blo bhi).1) ∧
          (((if alo < (flm a b alo ahi blo bhi).1 ∧ blo < (flm a b alo ahi blo bhi).2.1
              then mblocks a b fuel alo (flm a b alo ahi blo bhi).1
                blo (flm a b alo ahi blo bhi).2.1
              else []).map (fun m => m.2.2)).sum + blo
            ≤ (flm a b alo ahi blo bhi).2.1) := by
        split
        · rename_i hc
          exact ih alo (flm a b alo ahi blo bhi).1 blo
            (flm a b alo ahi blo bhi).2.1 (le_of_lt hc.1) (le_of_lt hc.2)
        · simp only [List.map_nil, List.sum_nil]
          omega
      have hR :
          (((if (flm a b alo ahi blo bhi).1 + (flm a b alo ahi blo bhi).2.2 < ahi ∧
                (flm a b alo ahi blo bhi).2.1 + (flm a b alo ahi blo bhi).2.2 < bhi
              then mblocks a b fuel
                ((flm a b alo ahi blo bhi).1 + (flm a b alo ahi blo bhi).2.2) ahi
                ((flm a b alo ahi blo bhi).2.1 + (flm a b alo ahi blo bhi).2.2) bhi
              else []).map (fun m => m.2.2)).sum +
              ((flm a b alo ahi blo bhi).1 + (flm a b alo ahi blo bhi).2.2) ≤ ahi) ∧
          (((if (flm a b alo ahi blo bhi).1 + (flm a b alo ahi blo bhi).2.2 < ahi ∧
                (flm a b alo ahi blo bhi).2.1 + (flm a b alo ahi blo bhi).2.2 < bhi
              then mblocks a b fuel
                ((flm a b alo ahi blo bhi).1 + (flm a b alo ahi blo bhi).2.2) ahi
                ((flm a b alo ahi blo bhi).2.1 + (flm a b alo ahi blo bhi).2.2) bhi
              else []).map (fun m => m.2.2)).sum +
              ((flm a b alo ahi blo bhi).2.1 + (flm a b alo ahi blo bhi).2.2) ≤ bhi) := by
        split
        · rename_i hc
          exact ih _ ahi _ bhi (le_of_lt hc.1) (le_of_lt hc.2)
        · simp only [List.map_nil, List.sum_nil]
          omega
      omega

theorem totalMatched_le (a b : List Char) :
    totalMatched a b ≤ a.length ∧ totalMatched a b ≤ b.length := by
  have h := mblocks_sum_le a b (a.length + b.length + 1) 0 a.length 0 b.length
    (Nat.zero_le _) (Nat.zero_le _)
  unfold totalMatched
  omega

theorem charSimilarity_bounds (a b : List Char) :
    0 ≤ charSimilarity a b ∧ charSimilarity a b ≤ 1 := by
  obtain ⟨h1, h2⟩ := totalMatched_le a b
  unfold charSimilarity
  split
  · norm_num
  · rename_i hz
    have hpos : (0:ℚ) < (a.length : ℚ) + (b.length : ℚ) := by
      have hlt : 0 < a.length + b.length := Nat.pos_of_ne_zero hz
      exact_mod_cast hlt
    constructor
    · positivity
    · rw [div_le_one hpos]
      have hle : 2 * totalMatched a b ≤ a.length + b.length := by omega
      exact_mod_cast hle

theorem jaccard_bounds (x y : List (List Char)) :
    0 ≤ jaccard x y ∧ jaccard x y ≤ 1 := by
  simp only [jaccard]
  split
  · norm_num
  · split
    · norm_num
    · rename_i hu
      have hsub : (x.toFinset ∩ y.toFinset).card ≤ (x.toFinset ∪ y.toFinset).card :=
        Finset.card_le_card Finset.inter_subset_union
      have hpos : (0:ℚ) < ((x.toFinset ∪ y.toFinset).card : ℚ) := by
        exact_mod_cast Nat.pos_of_ne_zero hu
      constructor
      · positivity
      · rw [div_le_one hpos]
        exact_mod_cast hsub

theorem tokenOverlap_bounds (x y : List (List Char)) :
    0 ≤ tokenOverlap x y ∧ tokenOverlap x y ≤ 1 := by
  simp only [tokenOverlap]
  split
  · norm_num
  · split
    · norm_num
    · rename_i hd
      have hsub : (x.toFinset ∩ y.toFinset).card ≤
          min x.toFinset.card y.toFinset.card :=
        Nat.le_min.mpr ⟨Finset.card_le_card Finset.inter_subset_left,
          Finset.card_le_card Finset.inter_subset_right⟩
      have hpos : (0:ℚ) < ((min x.toFinset.card y.toFinset.card : Nat) : ℚ) := by
        exact_mod_cast Nat.pos_of_ne_zero hd
      constructor
      · positivity
      · rw [div_le_one hpos]
        exact_mod_cast hsub

theorem combinedScore_in_unit (a b : List Char) :
    0 ≤ combinedScore a b ∧ combinedScore a b ≤ 1 := by
  obtain ⟨hc1, hc2⟩ := charSimilarity_bounds a b
  obtain ⟨hj1, hj2⟩ := jaccard_bounds (pyTokens a) (pyTokens b)
  obtain ⟨ho1, ho2⟩ := tokenOverlap_bounds (pyTokens a) (pyTokens b)
  simp only [combinedScore]
  constructor <;> linarith

/-! ## C4, part 2: the matcher gives ratio 1 on identical strings

With `isjunk = None` the junk set is empty, so whenever the dynamic
programme returns a best match on the diagonal (as it always does when the
two strings coincide and the window is the full balanced one), the two
non-junk extension loops stretch it to the whole window and
`get_matching_blocks` returns the single block `(0, 0, len(a))`. -/

theorem dchain_base (a : List Char)
    (h : seqIsPopular a (a.getD 0 ' ') = false) : dchain a 0 = 1 := by
  simp only [dchain]
  rw [h]
  rfl

theorem dchain_succ (a : List Char) (r : Nat)
    (h : seqIsPopular a (a.getD (r + 1) ' ') = false) :
    dchain a (r + 1) = dchain a r + 1 := by
  simp only [dchain]
  rw [h]
  rfl

theorem dchain_pos (a : List Char) (i : Nat)
    (h : seqIsPopular a (a.getD i ' ') = false) : 1 ≤ dchain a i := by
  cases i with
  | zero => rw [dchain_base a h]
  | succ r => rw [dchain_succ a r h]; omega

theorem dchain_zero (a : List Char) (i : Nat)
    (h : seqIsPopular a (a.getD i ' ') = true) : dchain a i = 0 := by
  cases i with
  | zero => simp only [dchain]; rw [h]; rfl
  | succ r => simp only [dchain]; rw [h]; rfl

theorem dchain_le (a : List Char) : ∀ i, dchain a i ≤ i + 1 := by
  intro i
  induction i with
  | zero =>
    simp only [dchain]
    split <;> omega
  | succ r ih =>
    simp only [dchain]
    split
    · omega
    · omega

theorem mem_seqB2j {b : List Char} {c : Char} {j : Nat} (h : j ∈ seqB2j b c) :
    j < b.length ∧ (b.getD j ' ' == c) = true := by
  unfold seqB2j at h
  split at h
  · cases h
  · obtain ⟨h1, h2⟩ := List.mem_filter.mp h
    exact ⟨List.mem_range.mp h1, h2⟩

theorem seqB2j_self_split (a : List Char) (i0 : Nat) (hin : i0 < a.length)
    (hnp : seqIsPopular a (a.getD i0 ' ') = false) :
    seqB2j a (a.getD i0 ' ') =
      ((List.range' 0 i0).filter (fun j => a.getD j ' ' == a.getD i0 ' ')) ++
      i0 :: ((List.range' (i0 + 1) (a.length - i0 - 1)).filter
        (fun j => a.getD j ' ' == a.getD i0 ' ')) := by
  unfold seqB2j
  rw [if_neg (by rw [hnp]; exact Bool.false_ne_true)]
  rw [List.range_eq_range']
  have happ := List.range'_append 0 i0 (a.length - i0) 1
  simp only [Nat.one_mul, Nat.zero_add] at happ
  rw [show a.length - i0 + i0 = a.length by omega] at happ
  rw [← happ, List.filter_append]
  rw [show a.length - i0 = (a.length - i0 - 1) + 1 by omega]
  rw [show List.range' i0 ((a.length - i0 - 1) + 1) =
    i0 :: List.range' (i0 + 1) (a.length - i0 - 1) from rfl]
  rw [List.filter_cons_of_pos (by simp)]
  simp only [Nat.add_sub_cancel]

theorem flmRow_self_step (a : List Char) (i0 : Nat) (prev : List (Nat × Nat))
    (best : Nat × Nat × Nat) (pre post : List Nat) (hin : i0 < a.length)
    (hnp : seqIsPopular a (a.getD i0 ' ') = false)
    (hrow : seqB2j a (a.getD i0 ' ') = pre ++ i0 :: post)
    (hpre : ∀ j ∈ pre, j < i0 ∧ (a.getD j ' ' == a.getD i0 ' ') = true)
    (hpost : ∀ j ∈ post, i0 < j ∧ j < a.length ∧
      (a.getD j ' ' == a.getD i0 ' ') = true)
    (hp1 : ∀ p ∈ prev, p.2 ≤ dchain a p.1)
    (hp2 : ∀ p ∈ prev, p.2 + 1 ≤ dchain a i0)
    (hp3 : (if i0 = 0 then 0 else alookup prev (i0 - 1)) + 1 = dchain a i0)
    (hb1 : best.1 = best.2.1)
    (hb2 : ∀ s, s < i0 → dchain a s ≤ best.2.2)
    (hb3 : best.1 + best.2.2 ≤ a.length) :
    (∀ p ∈ (flmRow prev 0 a.length i0 (seqB2j a (a.getD i0 ' ')) [] best).1,
        p.2 ≤ dchain a p.1 ∧ p.2 ≤ dchain a i0) ∧
    alookup (flmRow prev 0 a.length i0 (seqB2j a (a.getD i0 ' ')) [] best).1 i0
      = dchain a i0 ∧
    (flmRow prev 0 a.length i0 (seqB2j a (a.getD i0 ' ')) [] best).2.1
      = (flmRow prev 0 a.length i0 (seqB2j a (a.getD i0 ' ')) [] best).2.2.1 ∧
    (∀ s, s < i0 + 1 → dchain a s ≤
      (flmRow prev 0 a.length i0 (seqB2j a (a.getD i0 ' ')) [] best).2.2.2) ∧
    (flmRow prev 0 a.length i0 (seqB2j a (a.getD i0 ' ')) [] best).2.1 +
      (flmRow prev 0 a.length i0 (seqB2j a (a.getD i0 ' ')) [] best).2.2.2
      ≤ a.length := by
  have hK1 : 1 ≤ dchain a i0 := dchain_pos a i0 hnp
  have hKle : dchain a i0 ≤ i0 + 1 := dchain_le a i0
  have hcj : ∀ j ∈ pre ++ i0 :: post,
      (if j = 0 then 0 else alookup prev (j - 1)) + 1 ≤ dchain a j ∧
      (if j = 0 then 0 else alookup prev (j - 1)) + 1 ≤ dchain a i0 := by
    intro j hj
    have hjfacts : (a.getD j ' ' == a.getD i0 ' ') = true ∧ j < a.length := by
      rcases List.mem_append.mp hj with hl | hr
      · exact ⟨(hpre j hl).2, lt_trans (hpre j hl).1 hin⟩
      · rcases List.mem_cons.mp hr with rfl | hr
        · exact ⟨by simp, hin⟩
        · exact ⟨(hpost j hr).2.2, (hpost j hr).2.1⟩
    have hjnp : seqIsPopular a (a.getD j ' ') = false := by
      rw [eq_of_beq hjfacts.1]
      exact hnp
    constructor
    · cases j with
      | zero =>
        rw [if_pos rfl]
        exact dchain_pos a 0 hjnp
      | succ t =>
        rw [if_neg (by omega)]
        have hal : alookup prev (t + 1 - 1) ≤ dchain a (t + 1 - 1) :=
          alookup_le hp1 (t + 1 - 1)
        rw [dchain_succ a t hjnp]
        simp only [Nat.add_sub_cancel] at hal ⊢
        omega
    · cases j with
      | zero =>
        rw [if_pos rfl]
        exact hK1
      | succ t =>
        rw [if_neg (by omega)]
        have hal : alookup prev (t + 1 - 1) ≤ dchain a i0 - 1 :=
          alookup_le (f := fun _ => dchain a i0 - 1)
            (fun p hp => by
              show p.2 ≤ dchain a i0 - 1
              have := hp2 p hp
              omega) (t + 1 - 1)
        omega
  have hpre_lt : ∀ j ∈ pre, j < a.length := fun j hj =>
    lt_trans (hpre j hj).1 hin
  have hpre_nu : ∀ j ∈ pre, ¬ j < 0 → j < a.length →
      (if j = 0 then 0 else alookup prev (j - 1)) + 1 ≤ best.2.2 := by
    intro j hj _ _
    exact le_trans (hcj j (List.mem_append_left _ hj)).1 (hb2 j (hpre j hj).1)
  rw [hrow, flmRow_append prev 0 a.length i0 pre hpre_lt (i0 :: post) [] best,
    flmRow_no_update prev 0 a.length i0 pre [] best hpre_nu,
    flmRow_cons_push prev 0 a.length i0 i0 post _ best (by omega) (by omega),
    hp3]
  have hacc_pre : ∀ p ∈ (flmRow prev 0 a.length i0 pre [] best).1,
      p.2 ≤ dchain a p.1 ∧ p.2 ≤ dchain a i0 := by
    intro p hp
    rcases flmRow_acc prev 0 a.length i0 pre [] best p hp with h | ⟨hm, _, _, hv⟩
    · cases h
    · rw [hv]
      exact hcj p.1 (List.mem_append_left _ hm)
  have hacc_any : ∀ (bb : Nat × Nat × Nat), ∀ p ∈ (flmRow prev 0 a.length i0
      post ((i0, dchain a i0) :: (flmRow prev 0 a.length i0 pre [] best).1)
      bb).1, p.2 ≤ dchain a p.1 ∧ p.2 ≤ dchain a i0 := by
    intro bb p hp
    rcases flmRow_acc prev 0 a.length i0 post _ bb p hp with h | ⟨hm, _, _, hv⟩
    · rcases List.mem_cons.mp h with rfl | h
      · exact ⟨le_refl _, le_refl _⟩
      · exact hacc_pre p h
    · rw [hv]
      exact hcj p.1 (List.mem_append_right _ (List.mem_cons_of_mem _ hm))
  have hlook_any : ∀ (bb : Nat × Nat × Nat), alookup (flmRow prev 0 a.length i0
      post ((i0, dchain a i0) :: (flmRow prev 0 a.length i0 pre [] best).1)
      bb).1 i0 = dchain a i0 := by
    intro bb
    rw [flmRow_alookup_skip prev 0 a.length i0 post _ bb i0
      (fun hmem => by have := (hpost i0 hmem).1; omega)]
    rw [alookup_cons, if_pos rfl]
  have hpost_nu : ∀ (bb : Nat × Nat × Nat), dchain a i0 ≤ bb.2.2 →
      ∀ j ∈ post, ¬ j < 0 → j < a.length →
      (if j = 0 then 0 else alookup prev (j - 1)) + 1 ≤ bb.2.2 := by
    intro bb hbb j hj _ _
    exact le_trans (hcj j (List.mem_append_right _
      (List.mem_cons_of_mem _ hj))).2 hbb
  by_cases hup : best.2.2 < dchain a i0
  · rw [if_pos hup]
    rw [flmRow_no_update prev 0 a.length i0 post _
      (i0 + 1 - dchain a i0, i0 + 1 - dchain a i0, dchain a i0)
      (hpost_nu _ (le_refl _))]
    refine ⟨hacc_any _, hlook_any _, rfl, ?_, ?_⟩
    · intro s hs
      rcases Nat.lt_succ_iff_lt_or_eq.mp hs with hs | rfl
      · exact le_trans (hb2 s hs) (le_of_lt hup)
      · exact le_refl _
    · show i0 + 1 - dchain a i0 + dchain a i0 ≤ a.length
      omega
  · rw [if_neg hup]
    rw [flmRow_no_update prev 0 a.length i0 post _ best
      (hpost_nu best (by omega))]
    refine ⟨hacc_any _, hlook_any _, hb1, ?_, hb3⟩
    intro s hs
    rcases Nat.lt_succ_iff_lt_or_eq.mp hs with hs | rfl
    · exact hb2 s hs
    · omega

theorem flmRows_self_diag (a : List Char) :
    ∀ (m i0 : Nat) (prev : List (Nat × Nat)) (best : Nat × Nat × Nat)
      (pdc : Nat),
      i0 + m = a.length →
      (i0 = 0 → pdc = 0) →
      (∀ r, i0 = r + 1 → pdc = dchain a r) →
      (∀ p ∈ prev, p.2 ≤ dchain a p.1) →
      (∀ p ∈ prev, p.2 ≤ pdc) →
      alookup prev (i0 - 1) = pdc →
      best.1 = best.2.1 →
      (∀ s, s < i0 → dchain a s ≤ best.2.2) →
      best.1 + best.2.2 ≤ a.length →
      (flmRows a a 0 a.length (List.range' i0 m) prev best).1 =
        (flmRows a a 0 a.length (List.range' i0 m) prev best).2.1 ∧
      (flmRows a a 0 a.length (List.range' i0 m) prev best).1 +
        (flmRows a a 0 a.length (List.range' i0 m) prev best).2.2 ≤ a.length := by
  intro m
  induction m with
  | zero =>
    intro i0 prev best pdc _ _ _ _ _ _ hb1 _ hb3
    exact ⟨hb1, hb3⟩
  | succ m ih =>
    intro i0 prev best pdc hlen hc0 hcs hq1 hq2 hq3 hb1 hb2 hb3
    have hin : i0 < a.length := by omega
    rw [show List.range' i0 (m + 1) = i0 :: List.range' (i0 + 1) m from rfl]
    simp only [flmRows]
    by_cases hpop : seqIsPopular a (a.getD i0 ' ') = true
    · rw [show seqB2j a (a.getD i0 ' ') = [] from by
        unfold seqB2j; rw [if_pos hpop], flmRow_nil]
      refine ih (i0 + 1) [] best 0 (by omega) (fun _ => rfl) ?_
        (by intro p hp; cases hp) (by intro p hp; cases hp) rfl hb1 ?_ hb3
      · intro r hr
        have hri : r = i0 := by omega
        rw [hri, dchain_zero a i0 hpop]
      · intro s hs
        rcases Nat.lt_succ_iff_lt_or_eq.mp hs with hs | rfl
        · exact hb2 s hs
        · have h0 := dchain_zero a _ hpop
          omega
    · rw [Bool.not_eq_true] at hpop
      have hKpdc : dchain a i0 = pdc + 1 := by
        cases i0 with
        | zero =>
          rw [dchain_base a hpop, hc0 rfl]
        | succ r =>
          rw [dchain_succ a r hpop, hcs r rfl]
      have hsplit := seqB2j_self_split a i0 hin hpop
      have hpre : ∀ j ∈ (List.range' 0 i0).filter
          (fun j => a.getD j ' ' == a.getD i0 ' '),
          j < i0 ∧ (a.getD j ' ' == a.getD i0 ' ') = true := by
        intro j hj
        obtain ⟨hj1, hj2⟩ := List.mem_filter.mp hj
        have := List.mem_range'_1.mp hj1
        exact ⟨by omega, hj2⟩
      have hpost : ∀ j ∈ (List.range' (i0 + 1) (a.length - i0 - 1)).filter
          (fun j => a.getD j ' ' == a.getD i0 ' '),
          i0 < j ∧ j < a.length ∧ (a.getD j ' ' == a.getD i0 ' ') = true := by
        intro j hj
        obtain ⟨hj1, hj2⟩ := List.mem_filter.mp hj
        have := List.mem_range'_1.mp hj1
        exact ⟨by omega, by omega, hj2⟩
      have hstep := flmRow_self_step a i0 prev best _ _ hin hpop hsplit hpre
        hpost hq1
        (by
          intro p hp
          have h1 := hq2 p hp
          omega)
        (by
          cases i0 with
          | zero =>
            rw [if_pos rfl, hKpdc, hc0 rfl]
          | succ r =>
            rw [if_neg (by omega), hKpdc]
            exact congrArg (fun t => t + 1) hq3)
        hb1 hb2 hb3
      obtain ⟨hs1, hs2, hs3, hs4, hs5⟩ := hstep
      refine ih (i0 + 1) _ _ (dchain a i0) (by omega)
        (fun h => absurd h (Nat.succ_ne_zero i0)) ?_
        (fun p hp => (hs1 p hp).1) (fun p hp => (hs1 p hp).2) ?_ hs3 hs4 hs5
      · intro r hr
        have hri : r = i0 := by omega
        rw [hri]
      · show alookup (flmRow prev 0 a.length i0 (seqB2j a (a.getD i0 ' '))
          [] best).1 (i0 + 1 - 1) = dchain a i0
        rw [show i0 + 1 - 1 = i0 from rfl]
        exact hs2

theorem extendLo_zero (a b : List Char) (alo blo : Nat) (sense : Bool)
    (best : Nat × Nat × Nat) : extendLo a b alo blo sense 0 best = best := rfl

theorem extendLo_self (a : List Char) :
    ∀ (d k : Nat), extendLo a a 0 0 false d (d, d, k) = (0, 0, k + d) := by
  intro d
  induction d with
  | zero => intro k; rfl
  | succ d ih =>
    intro k
    simp only [extendLo]
    rw [if_pos ⟨Nat.succ_pos d, Nat.succ_pos d, by trivial, by trivial⟩]
    show extendLo a a 0 0 false d (d, d, k + 1) = (0, 0, k + (d + 1))
    rw [ih (k + 1)]
    exact congrArg (fun t => ((0, 0, t) : Nat × Nat × Nat)) (by omega)

theorem extendHi_self (a : List Char) :
    ∀ (fuel K : Nat), K ≤ a.length → a.length ≤ K + fuel →
      extendHi a a a.length a.length false fuel (0, 0, K) = (0, 0, a.length) := by
  intro fuel
  induction fuel with
  | zero =>
    intro K h1 h2
    have hK : K = a.length := by omega
    subst hK
    rfl
  | succ fuel ih =>
    intro K h1 h2
    by_cases hK : K < a.length
    · simp only [extendHi]
      rw [if_pos ⟨by omega, by omega, by trivial, by trivial⟩]
      exact ih (K + 1) (by omega) (by omega)
    · have hKe : K = a.length := by omega
      subst hKe
      simp only [extendHi]
      rw [if_neg (fun hc => absurd hc.1 (by omega))]

theorem extendHi_stuck (a b : List Char) (ahi bhi : Nat) (sense : Bool)
    (fuel : Nat) (bi bj k : Nat) (h : ¬ bi + k < ahi) :
    extendHi a b ahi bhi sense fuel (bi, bj, k) = (bi, bj, k) := by
  cases fuel with
  | zero => rfl
  | succ fuel =>
    simp only [extendHi]
    rw [if_neg (fun hc => h hc.1)]

theorem flm_self (a : List Char) (hne : a ≠ []) :
    flm a a 0 a.length 0 a.length = (0, 0, a.length) := by
  have hn : 0 < a.length := List.length_pos.mpr hne
  have hmain := flmRows_self_diag a a.length 0 [] (0, 0, 0) 0 (by omega)
    (fun _ => rfl) (fun r hr => absurd hr (Nat.succ_ne_zero r).symm)
    (by intro p hp; cases hp) (by intro p hp; cases hp) rfl rfl
    (by intro s hs; exact absurd hs (Nat.not_lt_zero s))
    (by dsimp only; omega)
  simp only [flm]
  rw [Nat.sub_zero]
  obtain ⟨⟨bi, bj, k⟩, hRdef⟩ : ∃ t : Nat × Nat × Nat,
      flmRows a a 0 a.length (List.range' 0 a.length) [] (0, 0, 0) = t :=
    ⟨_, rfl⟩
  rw [hRdef] at hmain ⊢
  dsimp only at hmain
  obtain ⟨hd, hbound⟩ := hmain
  subst hd
  rw [show ((bi, bi, k) : Nat × Nat × Nat).1 = bi from rfl,
    extendLo_self a bi k,
    extendHi_self a a.length (k + bi) (by omega) (by omega),
    show ((0, 0, a.length) : Nat × Nat × Nat).1 = 0 from rfl,
    extendLo_zero, extendHi_stuck a a a.length a.length true a.length 0 0
      a.length (by omega)]

theorem totalMatched_self (a : List Char) (hne : a ≠ []) :
    totalMatched a a = a.length := by
  have hn : 0 < a.length := List.length_pos.mpr hne
  unfold totalMatched
  simp only [mblocks]
  rw [flm_self a hne]
  simp [hn.ne']

theorem charSimilarity_self (a : List Char) : charSimilarity a a = 1 := by
  rcases eq_or_ne a [] with rfl | hne
  · simp [charSimilarity]
  · have hn : 0 < a.length := List.length_pos.mpr hne
    unfold charSimilarity
    rw [if_neg (by omega), totalMatched_self a hne]
    have hq : (0:ℚ) < (a.length : ℚ) + (a.length : ℚ) := by
      have h2 : 0 < a.length + a.length := by omega
      exact_mod_cast h2
    rw [div_eq_one_iff_eq hq.ne']
    ring

theorem jaccard_self (t : List (List Char)) (h : t ≠ []) : jaccard t t = 1 := by
  obtain ⟨x, hx⟩ := List.exists_mem_of_ne_nil t h
  have hpos : 0 < t.toFinset.card :=
    Finset.card_pos.mpr ⟨x, List.mem_toFinset.mpr hx⟩
  simp only [jaccard]
  rw [if_neg (by simp [h])]
  simp only [Finset.inter_self, Finset.union_self]
  rw [if_neg (by omega)]
  rw [div_self (by exact_mod_cast hpos.ne')]

theorem tokenOverlap_self (t : List (List Char)) (h : t ≠ []) :
    tokenOverlap t t = 1 := by
  obtain ⟨x, hx⟩ := List.exists_mem_of_ne_nil t h
  have hpos : 0 < t.toFinset.card :=
    Finset.card_pos.mpr ⟨x, List.mem_toFinset.mpr hx⟩
  simp only [tokenOverlap]
  rw [if_neg (by simp [h])]
  simp only [Finset.inter_self, min_self]
  rw [if_neg (by omega)]
  rw [div_self (by exact_mod_cast hpos.ne')]

theorem pyTokens_normalize_ne_nil (aliases : List (List Char × List (List Char)))
    (s : List Char) (h : normalize aliases s ≠ []) :
    pyTokens (normalize aliases s) ≠ [] := by
  obtain ⟨toks, heq, hts, _⟩ := normalize_shape aliases s
  rw [heq] at h ⊢
  unfold pyTokens
  rw [splitWS_joinSpace toks (fun tok htok => ⟨(hts tok htok).1,
    fun c hc => isSpaceChar_eq_false_of_az09 ((hts tok htok).2 c hc)⟩)]
  rw [List.filter_eq_self.mpr (fun tok htok => by
    simp [(hts tok htok).1])]
  intro hnil
  rw [hnil] at h
  exact h rfl

/-- **C4.**  For every pair of strings, `combined_score` lies in `[0, 1]`
(each of `char_similarity`, `jaccard` and `token_overlap` lies in `[0, 1]`
and the weights `0.40 + 0.30 + 0.30` sum to one); and on any string that is
non-empty after normalization, `combined_score` of the normalized string
with itself is exactly `1` (`ratio` returns `1` on identical strings — the
dynamic programme's best match lies on the diagonal and the junk-free
extension loops stretch it to the whole window — and both token scores are
`1` on a non-empty token list). -/
theorem combinedScore_in_unit_and_self :
    (∀ a b : List Char, 0 ≤ combinedScore a b ∧ combinedScore a b ≤ 1) ∧
    ∀ (aliases : List (List Char × List (List Char))) (s : List Char),
      normalize aliases s ≠ [] →
      combinedScore (normalize aliases s) (normalize aliases s) = 1 := by
  refine ⟨combinedScore_in_unit, ?_⟩
  intro aliases s h
  have ht := pyTokens_normalize_ne_nil aliases s h
  simp only [combinedScore]
  rw [charSimilarity_self, jaccard_self _ ht, tokenOverlap_self _ ht]
  norm_num

/-- Witness for C4: the bounds at a concrete pair of strings, and the
self-score `1` on the normalization of `"pca rocks"` (which is non-empty:
it normalizes to `"principal component analysis rocks"`). -/
theorem combinedScore_in_unit_and_self_witness :
    (0 ≤ combinedScore (cs ("abc")) (cs ("bcd")) ∧
      combinedScore (cs ("abc")) (cs ("bcd")) ≤ 1) ∧
    normalize defaultAliases (cs ("pca rocks")) ≠ [] ∧
    combinedScore (normalize defaultAliases (cs ("pca rocks")))
      (normalize defaultAliases (cs ("pca rocks"))) = 1 :=
  ⟨combinedScore_in_unit_and_self.1 (cs ("abc")) (cs ("bcd")),
   by with_unfolding_all decide,
   combinedScore_in_unit_and_self.2 defaultAliases (cs ("pca rocks"))
     (by with_unfolding_all decide)⟩

end DataMining
